import Mathlib

/-!
# Verification of `network_metrics` (ccocuzza/network_metrics)

Shallow embedding of the repository's array pipelines and proofs about them.

Modelling conventions, used uniformly below:

* IEEE-754 doubles are modelled by exact rationals; `NaN` is adjoined as
  `Option ℚ` (`none` = NaN).  All numpy reductions (`nansum`, `nanmean`,
  `sum`, `max`, `argmax`, `sort`, `argsort`) are embedded with numpy's
  documented NaN semantics: `nansum`/`nanmean` ignore NaN (empty window
  gives NaN), `sum`/`max` propagate NaN, `argmax` returns the index of the
  first NaN when one is present, `sort`/`argsort` place NaN last.
* `np.sort` on ℕ-valued vectors is modelled as a counting sort; the sorted
  VALUE vector is determined by the value counts alone, so this embedding
  is exact no matter how numpy breaks ties.  `np.argsort`'s default kind
  (introsort) is documented as NOT stable, so the relative order of tied
  positions is unspecified in general; numpy only degenerates to the
  stable insertion sort below its 16-element cutoff.  The model
  `npArgsortNat` fixes ties to input order — exact for the length-4
  concrete runs below, but only one admissible tie-breaking at the
  program's intended 360-node scale.  General theorems therefore avoid
  depending on the tie order: the fixed-point theorem for
  `restPartitionAdjuster` quantifies over every within-block tie-breaking
  of the argsort.
* `np.arctanh`/`np.tanh` (used only inside `restPartitionAdjuster`, and
  only ever consumed through an argmax) are transcendental and have no
  rational embedding; they are passed as explicit function parameters
  `aF`/`tF` of type `Option ℚ → Option ℚ`.  Theorems about the stages that
  follow the argmax hold for every choice of `aF`/`tF`, hence in
  particular for the real `tanh`/`arctanh`.  Concrete evaluations use
  inputs on which every averaging window holds a single finite value (or
  only NaNs), so that `tanh (arctanh x) = x` makes the identity codec
  reproduce the real trace exactly.
* numpy arrays are embedded as total functions (inputs) or as nested
  `List`s (outputs, mirroring the `np.zeros(...)` result buffers); an
  in-range read `a[i]` becomes `l.getD i d`.
-/

/-- A double that may be NaN: `none` = NaN, `some q` = the finite value `q`. -/
abbrev QNan := Option ℚ

/-- `(List.range n).map f`: the embedding of a freshly filled 1-D result buffer. -/
def tabL (n : ℕ) (f : ℕ → α) : List α := (List.range n).map f

/-- `np.nansum` over a 1-D window: NaNs are ignored (all-NaN sums to 0). -/
def nansum (l : List QNan) : ℚ := (l.filterMap id).sum

/-- `np.nanmean` over a 1-D window: NaNs are ignored; an empty (or all-NaN)
window yields NaN. -/
def nanmean (l : List QNan) : QNan :=
  match l.filterMap id with
  | [] => none
  | vs => some (vs.sum / vs.length)

/-- `np.sum` over a 1-D window: any NaN makes the result NaN. -/
def npSum (l : List QNan) : QNan :=
  if l.any (·.isNone) then none else some ((l.filterMap id).sum)

/-- `a - b` on possibly-NaN doubles. -/
def qnanSub : QNan → QNan → QNan
  | some a, some b => some (a - b)
  | _, _ => none

/-- `a / b` on possibly-NaN doubles; callers below only divide by values that
were pre-tested nonzero (the source replaces a zero divisor by NaN first). -/
def qnanDiv : QNan → QNan → QNan
  | some a, some b => some (a / b)
  | _, _ => none

/-- `a < c` for a possibly-NaN `a` against a finite threshold: any comparison
with NaN is false. -/
def qnanLtB (a : QNan) (c : ℚ) : Bool :=
  match a with
  | none => false
  | some x => decide (x < c)

/-- `x != 0` in numpy: NaN compares unequal to zero, so a NaN entry counts as
a "nonzero edge" in the boolean masks of the coefficient functions. -/
def isNzB : QNan → Bool
  | none => true
  | some x => decide (x ≠ 0)

/-- Elementwise `v * b` of a double against a 0/1 mask: `NaN * 0 = NaN`,
`NaN * 1 = NaN`, `v * 0 = 0`, `v * 1 = v`. -/
def mulMask (v : QNan) (b : Bool) : QNan :=
  match v with
  | none => none
  | some x => some (if b then x else 0)

/-- `np.max` over a 1-D window: NaN propagates (any NaN gives NaN). -/
def npMax (l : List QNan) : QNan :=
  if l.any (·.isNone) then none
  else
    match l.filterMap id with
    | [] => none
    | x :: xs => some (xs.foldl max x)

/-- Index of the first NaN of a window, if any. -/
def firstNoneIdx : List QNan → Option ℕ
  | [] => none
  | none :: _ => some 0
  | some _ :: xs => (firstNoneIdx xs).map (· + 1)

/-- Index of the last NaN of a window, if any. -/
def lastNoneIdx : List QNan → Option ℕ
  | [] => none
  | x :: xs =>
    match lastNoneIdx xs with
    | some i => some (i + 1)
    | none => if x.isNone then some 0 else none

/-- Running scan for the first index attaining the maximum (`np.argmax` updates
its candidate only on a strict increase). -/
def firstArgmaxQAux (bi : ℕ) (bv : ℚ) (i : ℕ) : List ℚ → ℕ
  | [] => bi
  | x :: xs => if bv < x then firstArgmaxQAux i x (i + 1) xs else firstArgmaxQAux bi bv (i + 1) xs

/-- First index attaining the maximum of a finite window. -/
def firstArgmaxQ : List ℚ → ℕ
  | [] => 0
  | x :: xs => firstArgmaxQAux 0 x 1 xs

/-- `np.argmax`: the index of the first NaN when one is present, else the first
index attaining the maximum. -/
def npArgmax (l : List QNan) : ℕ :=
  match firstNoneIdx l with
  | some i => i
  | none => firstArgmaxQ (l.filterMap id)

/-- Running scan for the last index attaining the maximum (candidate updated on
`≤`). -/
def lastArgmaxQAux (bi : ℕ) (bv : ℚ) (i : ℕ) : List ℚ → ℕ
  | [] => bi
  | x :: xs => if bv ≤ x then lastArgmaxQAux i x (i + 1) xs else lastArgmaxQAux bi bv (i + 1) xs

/-- Last index attaining the maximum of a finite window. -/
def lastArgmaxQ : List ℚ → ℕ
  | [] => 0
  | x :: xs => lastArgmaxQAux 0 x 1 xs

/-- `np.argsort(v)[::-1][0]` for a possibly-NaN vector `v`.  `v` is always
`tempVec`, whose length is the network count (12 in the intended use), well
below numpy's 16-element cutoff where the default argsort IS the stable
insertion sort: ascending sort places NaNs last (in index order) and ties in
index order, so after the reversal the head is the last NaN's index when NaNs
are present, else the last index attaining the maximum. -/
def argsortDescHead (l : List QNan) : ℕ :=
  match lastNoneIdx l with
  | some i => i
  | none => lastArgmaxQ (l.filterMap id)

/-!
## `cole_lab_net_metrics/gvc.py`

`gvc(fcArray)` for a 4-D `fcArray` (nodes × nodes × tasks × subjects).
`np.nanstd` takes a square root, which has no rational embedding; it is passed
as the explicit parameter `sq` (applied to the population variance).  Every
theorem below quantifies over `sq`, so it holds for the real square root.
-/

/-- The entry of the per-task working slice after `np.fill_diagonal(·, np.nan)`. -/
def gvcEntry (fc : ℕ → ℕ → ℕ → ℕ → QNan) (i j t s : ℕ) : QNan :=
  if i = j then none else fc i j t s

/-- `np.nanstd` over a 1-D window: NaNs ignored, `sq` standing for the square
root of the population variance; an all-NaN window gives NaN. -/
def nanstd (sq : ℚ → ℚ) (l : List QNan) : QNan :=
  match l.filterMap id with
  | [] => none
  | vs => some (sq ((vs.map (fun x => (x - vs.sum / vs.length) ^ 2)).sum / vs.length))

/-- `gvc`: per (node, subject), the NaN-ignoring mean over source nodes of the
across-task standard deviation of each edge weight (diagonal NaN-ed). -/
def gvc (sq : ℚ → ℚ) (n T S : ℕ) (fc : ℕ → ℕ → ℕ → ℕ → QNan) : List (List QNan) :=
  tabL n (fun i => tabL S (fun s =>
    nanmean (tabL n (fun j => nanstd sq (tabL T (fun t => gvcEntry fc i j t s))))))

/-- The caller's `fcArray` after `gvc` returns.  `thisSubj = fcArray[:,:,:,subjNum]`
and `thisTask = thisSubj[:,:,taskNum]` are numpy views, so
`np.fill_diagonal(thisTask, np.nan)` writes NaN into the diagonal of the
caller's array for every task and subject visited by the loops. -/
def gvc_fcArray_after (n T S : ℕ) (fc : ℕ → ℕ → ℕ → ℕ → QNan) :
    ℕ → ℕ → ℕ → ℕ → QNan :=
  fun i j t s => if i = j ∧ i < n ∧ t < T ∧ s < S then none else fc i j t s

/-- The caller's 2-D `fcArray` after `gateway_coefficient_sign` returns: line 26
executes `np.fill_diagonal(fcArray, 0)` directly on the argument (no copy is
taken), zeroing the diagonal of the caller's array in place. -/
def gateway_fcArray_after (n : ℕ) (fc : ℕ → ℕ → QNan) : ℕ → ℕ → QNan :=
  fun i j => if i = j ∧ i < n then some 0 else fc i j

/-!
## `participation_coefficient_sign.py`

`participation_coefficient_sign(fcArray, thisNetAffilVec, numNets)` for a
2-D `fcArray` (the `matmul`/broadcast shapes in the source only fit the
nodes × nodes case).  Network ids are one-indexed, as in the source.
-/

/-- `degreeOfROIs = np.nansum(fcArray, axis=1)` — row strength of node `i`. -/
def degreeOfROIs (n : ℕ) (fc : ℕ → ℕ → QNan) (i : ℕ) : ℚ :=
  nansum (tabL n (fun j => fc i j))

/-- `netAffilMask = np.matmul((fcArray!=0), np.diag(thisNetAffilVec))`:
entry `(i,j)` is `affil j` when `fc i j` compares nonzero (NaN does), else 0. -/
def netAffilMask (fc : ℕ → ℕ → QNan) (affil : ℕ → ℕ) (i j : ℕ) : ℕ :=
  if isNzB (fc i j) then affil j else 0

/-- `sumVec = np.nansum(fcArray * (netAffilMask==netNum), axis=1)` for net `m`. -/
def sumVecPC (n : ℕ) (fc : ℕ → ℕ → QNan) (affil : ℕ → ℕ) (m i : ℕ) : ℚ :=
  nansum (tabL n (fun j => mulMask (fc i j) (netAffilMask fc affil i j = m)))

/-- `arrHere`: the accumulated `Σ_m sumVec²` over nets `m = 1..numNets`. -/
def arrHerePC (n numNets : ℕ) (fc : ℕ → ℕ → QNan) (affil : ℕ → ℕ) (i : ℕ) : ℚ :=
  ((List.range' 1 numNets).map (fun m => (sumVecPC n fc affil m i) ^ 2)).sum

/-- `squareDegrees` after the divide-by-zero guard: zero squared degrees are
replaced by NaN (`squareDegrees[zeroIxs] = np.nan`). -/
def squareDegreesPC (n : ℕ) (fc : ℕ → ℕ → QNan) (i : ℕ) : QNan :=
  if (degreeOfROIs n fc i) ^ 2 = 0 then none else some ((degreeOfROIs n fc i) ^ 2)

/-- `partCoef = 1 - arrHere/squareDegrees`, before the NaN / zero cleanup. -/
def partCoefRaw (n numNets : ℕ) (fc : ℕ → ℕ → QNan) (affil : ℕ → ℕ) (i : ℕ) : QNan :=
  qnanSub (some 1) (qnanDiv (some (arrHerePC n numNets fc affil i)) (squareDegreesPC n fc i))

/-- `participation_coefficient_sign`: the returned `partCoef` vector.  The
three cleanup passes of the source are applied in order: NaN scores → 0,
zero-degree nodes → 0, zero scores → 0 (the last is the redundant second
pass kept from the original `_sign` function). -/
def participation_coefficient_sign (n numNets : ℕ) (fc : ℕ → ℕ → QNan)
    (affil : ℕ → ℕ) : List ℚ :=
  tabL n (fun i =>
    let p1 : ℚ := (partCoefRaw n numNets fc affil i).getD 0
    let p2 : ℚ := if degreeOfROIs n fc i = 0 then 0 else p1
    if p2 = 0 then 0 else p2)

/-!
## `restPartitionAdjuster.py`

`restPartitionAdjuster(fcArray, netBoundaries, nodeOrder)` for a 3-D
`fcArray` (nodes × nodes × subjects).  `netBoundaries` rows are
`(startIndex, endIndex, size)` with inclusive `endIndex`; `nodeOrder` is the
sorting index vector.  `np.arctanh` / `np.tanh` are the explicit parameters
`aF` / `tF` (see the header); `scipy.stats.mode` returns the smallest modal
value together with its count.
-/

/-- One subject's sorted working copy after
`subjSortedCA = thisSubjRestFC[nodeOrder,:][:,nodeOrder]` and
`np.fill_diagonal(subjSortedCA, np.nan)`. -/
def subjSortedCA (fc : ℕ → ℕ → ℕ → QNan) (order : List ℕ) (s i j : ℕ) : QNan :=
  if i = j then none else fc (order.getD i 0) (order.getD j 0) s

/-- `tempVec`: per network, `np.tanh(np.nanmean(np.arctanh(thisNodeVec[start:end+1])))`. -/
def fisherClusterVec (aF tF : QNan → QNan) (fc : ℕ → ℕ → ℕ → QNan) (order : List ℕ)
    (bounds : List (ℕ × ℕ × ℕ)) (s node : ℕ) : List QNan :=
  bounds.map (fun b =>
    tF (nanmean ((List.range' b.1 (b.2.1 + 1 - b.1)).map
      (fun j => aF (subjSortedCA fc order s node j)))))

/-- `restPreferences[node, subj] = np.argsort(tempVec)[::-1][0]`. -/
def restPreferencesOf (aF tF : QNan → QNan) (n S : ℕ) (fc : ℕ → ℕ → ℕ → QNan)
    (bounds : List (ℕ × ℕ × ℕ)) (order : List ℕ) : List (List ℕ) :=
  tabL n (fun node => tabL S (fun s =>
    argsortDescHead (fisherClusterVec aF tF fc order bounds s node)))

/-- The largest multiplicity appearing in a window (the count of the mode). -/
def modeCount (l : List ℕ) : ℕ := (l.map (fun v => l.count v)).foldr max 0

/-- Minimum of a ℕ window (0 for an empty window). -/
def listMinD : List ℕ → ℕ
  | [] => 0
  | x :: xs => xs.foldl min x

/-- `scipy.stats.mode` of a window: the smallest value of maximal multiplicity. -/
def modeVal (l : List ℕ) : ℕ := listMinD (l.filter (fun v => l.count v = modeCount l))

/-- `restMode[node]`: the across-subject mode of the node's preference row. -/
def restModeListOf (aF tF : QNan → QNan) (n S : ℕ) (fc : ℕ → ℕ → ℕ → QNan)
    (bounds : List (ℕ × ℕ × ℕ)) (order : List ℕ) : List ℕ :=
  tabL n (fun node => modeVal ((restPreferencesOf aF tF n S fc bounds order).getD node []))

/-- `percentAgree[node] = restModeCount[node] / numSubjs`. -/
def percentAgreeOf (aF tF : QNan → QNan) (n S : ℕ) (fc : ℕ → ℕ → ℕ → QNan)
    (bounds : List (ℕ × ℕ × ℕ)) (order : List ℕ) : List ℚ :=
  tabL n (fun node =>
    (modeCount ((restPreferencesOf aF tF n S fc bounds order).getD node []) : ℚ) / S)

/-- `restConsensus`: starting from `np.zeros(nParcels)`, the double loop over
networks and their node ranges writes `netNum` when the node's `percentAgree`
is below one half and the modal network index otherwise. -/
def restConsensusOf (aF tF : QNan → QNan) (n S : ℕ) (fc : ℕ → ℕ → ℕ → QNan)
    (bounds : List (ℕ × ℕ × ℕ)) (order : List ℕ) : List ℕ :=
  (List.range bounds.length).foldl
    (fun acc k =>
      let b := bounds.getD k (0, 0, 0)
      (List.range' b.1 (b.2.1 + 1 - b.1)).foldl
        (fun a node =>
          a.set node
            (if (percentAgreeOf aF tF n S fc bounds order).getD node 0 < 1 / 2 then k
             else (restModeListOf aF tF n S fc bounds order).getD node 0))
        acc)
    (List.replicate n 0)

/-- Largest element of a ℕ window (0 for an empty window). -/
def maxKey (l : List ℕ) : ℕ := l.foldr max 0

/-- `np.sort` of a ℕ-valued vector, as a counting sort: for each value in
ascending order, emit it with its multiplicity.  The sorted value vector is
determined by the counts alone, so this is exact for numpy's `np.sort`
regardless of which (unstable) algorithm numpy runs. -/
def npSortNat (l : List ℕ) : List ℕ :=
  (List.range (maxKey l + 1)).flatMap (fun k => List.replicate (l.count k) k)

/-- `np.argsort` of a ℕ-valued vector.  numpy's contract is only "indices that
sort the array", and the default kind (introsort) is documented as NOT stable:
the order of tied positions is unspecified in general, coinciding with the
stable insertion sort only below numpy's 16-element cutoff.  This model emits
each value's positions in input order (the stable tie-breaking) — exact for
the length-4 concrete runs below, but only one admissible output at larger
sizes, so no general theorem below relies on the tie order of this
definition. -/
def npArgsortNat (l : List ℕ) : List ℕ :=
  (List.range (maxKey l + 1)).flatMap
    (fun k => (List.range l.length).filter (fun i => l.getD i 0 = k))

/-- `np.where(indices == k)[0]`: the positions of `k`, in ascending order. -/
def finderOf (ind : List ℕ) (k : ℕ) : List ℕ :=
  (List.range ind.length).filter (fun i => ind.getD i 0 = k)

/-- The `netBoundariesNew` reconstruction loop: per network `k`, row
`[np.min(finder), np.max(finder), np.max(finder)-np.min(finder)+1]`;
`np.min` of an empty `finder` raises `ValueError`, embedded as `Except.error`. -/
def buildBoundsAux (ind : List ℕ) : List ℕ → Except Unit (List (ℕ × ℕ × ℕ))
  | [] => Except.ok []
  | k :: ks =>
    match (finderOf ind k).head?, (finderOf ind k).getLast? with
    | some a, some b => (buildBoundsAux ind ks).map (fun rest => (a, b, b - a + 1) :: rest)
    | _, _ => Except.error ()

/-- The six return values of `restPartitionAdjuster`. -/
structure RPAOut where
  netBoundariesNew : List (ℕ × ℕ × ℕ)
  nodeOrderNew : List ℕ
  restPreferences : List (List ℕ)
  percentAgree : List ℚ
  restConsensus : List ℕ
  nodeIndicesNew : List ℕ
deriving DecidableEq

/-- `restPartitionAdjuster`: the full pipeline.  The reconstruction loop is the
only failing step (`np.min` over an empty position set); everything before it
is total. -/
def restPartitionAdjuster (aF tF : QNan → QNan) (n S : ℕ) (fc : ℕ → ℕ → ℕ → QNan)
    (bounds : List (ℕ × ℕ × ℕ)) (order : List ℕ) : Except Unit RPAOut :=
  let prefs := restPreferencesOf aF tF n S fc bounds order
  let agree := percentAgreeOf aF tF n S fc bounds order
  let cons := restConsensusOf aF tF n S fc bounds order
  let ind := npSortNat cons
  (buildBoundsAux ind (List.range bounds.length)).map
    (fun bN => ⟨bN, npArgsortNat cons, prefs, agree, cons, ind⟩)

/-!
## `cole_lab_net_metrics/deviation.py`

`deviation(fcArray, netBoundaries, nodeOrder, useMeanFirst, ...)` for a 4-D
`fcArray` (nodes × nodes × tasks × subjects).  The per-subject branch
(`useMeanFirst=False`, lines 145–246) is embedded pointwise as functions; the
mean-first branch (`useMeanFirst=True`, lines 49–142) is embedded with
materialised result buffers.  Neither branch touches the diagonal: the sorted
slice `thisTask = thisTaskHere[nodeOrder,:][:,nodeOrder]` is clustered as-is.
The `print` diagnostics of the row-sum sanity check are embedded as a returned
list of offending indices; no statement of either branch can raise.
-/

/-- Per-subject `clusteredTaskFC[node, net, task, subj]`: the NaN-ignoring mean
of the sorted row restricted to the network's column range. -/
def clusteredTaskFC_PS (fc : ℕ → ℕ → ℕ → ℕ → QNan) (bounds : List (ℕ × ℕ × ℕ))
    (order : List ℕ) (node k t s : ℕ) : QNan :=
  let b := bounds.getD k (0, 0, 0)
  nanmean ((List.range' b.1 (b.2.1 + 1 - b.1)).map
    (fun j => fc (order.getD node 0) (order.getD j 0) t s))

/-- Per-subject `nodePrefIdxs[node, task, subj] = np.argmax` over networks. -/
def nodePrefIdxs_PS (numNets : ℕ) (fc : ℕ → ℕ → ℕ → ℕ → QNan)
    (bounds : List (ℕ × ℕ × ℕ)) (order : List ℕ) (node t s : ℕ) : ℕ :=
  npArgmax (tabL numNets (fun k => clusteredTaskFC_PS fc bounds order node k t s))

/-- Per-subject `nodePrefVals[node, task, subj] = np.max` over networks. -/
def nodePrefVals_PS (numNets : ℕ) (fc : ℕ → ℕ → ℕ → ℕ → QNan)
    (bounds : List (ℕ × ℕ × ℕ)) (order : List ℕ) (node t s : ℕ) : QNan :=
  npMax (tabL numNets (fun k => clusteredTaskFC_PS fc bounds order node k t s))

/-- Per-subject `maxMembershipsTF[node, task, net, subj] = (prefIdx == net) * 1`. -/
def maxMembershipsTF_PS (numNets : ℕ) (fc : ℕ → ℕ → ℕ → ℕ → QNan)
    (bounds : List (ℕ × ℕ × ℕ)) (order : List ℕ) (node t k s : ℕ) : ℚ :=
  if nodePrefIdxs_PS numNets fc bounds order node t s = k then 1 else 0

/-- Per-subject `netAffinities[node, net, subj]`: the task tally divided by the
task count. -/
def netAffinities_PS (numNets T : ℕ) (fc : ℕ → ℕ → ℕ → ℕ → QNan)
    (bounds : List (ℕ × ℕ × ℕ)) (order : List ℕ) (node k s : ℕ) : ℚ :=
  (tabL T (fun t => maxMembershipsTF_PS numNets fc bounds order node t k s)).sum / T

/-- Per-subject `clusteredAffinities[net, net', subj]`: the NaN-ignoring mean of
`netAffinities[start:end+1, net', subj]`. -/
def clusteredAffinities_PS (numNets T : ℕ) (fc : ℕ → ℕ → ℕ → ℕ → QNan)
    (bounds : List (ℕ × ℕ × ℕ)) (order : List ℕ) (k j s : ℕ) : QNan :=
  let b := bounds.getD k (0, 0, 0)
  nanmean ((List.range' b.1 (b.2.1 + 1 - b.1)).map
    (fun node => some (netAffinities_PS numNets T fc bounds order node j s)))

/-- Per-subject `adherenceRFs[net, subj] = diag(clusteredAffinities[:,:,subj])`. -/
def adherenceRFs_PS (numNets T : ℕ) (fc : ℕ → ℕ → ℕ → ℕ → QNan)
    (bounds : List (ℕ × ℕ × ℕ)) (order : List ℕ) (k s : ℕ) : QNan :=
  clusteredAffinities_PS numNets T fc bounds order k k s

/-- Per-subject `deviationRFs = 1 - adherenceRFs`. -/
def deviationRFs_PS (numNets T : ℕ) (fc : ℕ → ℕ → ℕ → ℕ → QNan)
    (bounds : List (ℕ × ℕ × ℕ)) (order : List ℕ) (k s : ℕ) : QNan :=
  qnanSub (some 1) (adherenceRFs_PS numNets T fc bounds order k s)

/-- `a * c` of a possibly-NaN double by a finite factor (`NaN * 100 = NaN`). -/
def qnanMul (a : QNan) (c : ℚ) : QNan :=
  match a with
  | none => none
  | some x => some (x * c)

/-- Per-subject `np.sum(clusteredAffinities[net, :, subj])`: the row sum tested
by the sanity check (NaN propagates, and a NaN row sum fails the `< 99.9`
comparison, so it is never reported). -/
def affRowSum_PS (numNets T : ℕ) (fc : ℕ → ℕ → ℕ → ℕ → QNan)
    (bounds : List (ℕ × ℕ × ℕ)) (order : List ℕ) (k s : ℕ) : QNan :=
  npSum (tabL numNets (fun j => clusteredAffinities_PS numNets T fc bounds order k j s))

/-- The diagnostics of the per-subject sanity-check loop (lines 229–236): the
`(subject, network)` pairs whose clustered-affinity row sums to less than 99.9%,
in the loop's visiting order.  The loop only prints; it computes nothing that
the returned arrays use. -/
def sanityWarnings_PS (numNets T S : ℕ) (fc : ℕ → ℕ → ℕ → ℕ → QNan)
    (bounds : List (ℕ × ℕ × ℕ)) (order : List ℕ) : List (ℕ × ℕ) :=
  (List.range S).flatMap (fun s =>
    ((List.range numNets).filter (fun k =>
      qnanLtB (qnanMul (affRowSum_PS numNets T fc bounds order k s) 100) (999 / 10))).map
      (fun k => (s, k)))

/-- The six arrays returned by the per-subject branch of `deviation`, as
pointwise functions. -/
structure DevPSOut where
  deviationRFs : ℕ → ℕ → QNan
  clusteredAffinities : ℕ → ℕ → ℕ → QNan
  netAffinities : ℕ → ℕ → ℕ → ℚ
  nodePrefVals : ℕ → ℕ → ℕ → QNan
  nodePrefIdxs : ℕ → ℕ → ℕ → ℕ
  maxMembershipsTF : ℕ → ℕ → ℕ → ℕ → ℚ

/-- The per-subject branch of `deviation` without its sanity-check loop: just
the six returned arrays. -/
def deviation_perSubject_noCheck (numNets T : ℕ) (fc : ℕ → ℕ → ℕ → ℕ → QNan)
    (bounds : List (ℕ × ℕ × ℕ)) (order : List ℕ) : DevPSOut where
  deviationRFs := deviationRFs_PS numNets T fc bounds order
  clusteredAffinities := clusteredAffinities_PS numNets T fc bounds order
  netAffinities := netAffinities_PS numNets T fc bounds order
  nodePrefVals := nodePrefVals_PS numNets fc bounds order
  nodePrefIdxs := nodePrefIdxs_PS numNets fc bounds order
  maxMembershipsTF := maxMembershipsTF_PS numNets fc bounds order

/-- The per-subject branch of `deviation` with its sanity-check loop: the six
returned arrays together with the check's diagnostics.  The branch contains no
raising statement, so it is a total function. -/
def deviation_perSubject (numNets T S : ℕ) (fc : ℕ → ℕ → ℕ → ℕ → QNan)
    (bounds : List (ℕ × ℕ × ℕ)) (order : List ℕ) : DevPSOut × List (ℕ × ℕ) :=
  (deviation_perSubject_noCheck numNets T fc bounds order,
   sanityWarnings_PS numNets T S fc bounds order)

/-- Mean-first `clusteredTaskFC[node, :, task]` (lines 49–75): for each network
range, ONE `np.nanmean` over the 2-D block `thisNodeVec[start:end+1]` of shape
(range × subjects) — the block and subject axes are averaged jointly, not
sequentially. -/
def clusterJointMF (n T S : ℕ) (fc : ℕ → ℕ → ℕ → ℕ → QNan)
    (bounds : List (ℕ × ℕ × ℕ)) (order : List ℕ) : List (List (List QNan)) :=
  tabL n (fun node => tabL T (fun t =>
    bounds.map (fun b =>
      nanmean ((List.range' b.1 (b.2.1 + 1 - b.1)).flatMap
        (fun j => tabL S (fun s => fc (order.getD node 0) (order.getD j 0) t s))))))

/-- The subject-averaged connectivity matrix: `nanmean` across the subject axis. -/
def meanAcrossSubjs (S : ℕ) (fc : ℕ → ℕ → ℕ → ℕ → QNan) (i j t : ℕ) : QNan :=
  nanmean (tabL S (fun s => fc i j t s))

/-- Modelled from the spec's words ("mean-first — average connectivity across
subjects before clustering/preference extraction"): cluster the
subject-averaged matrix, i.e. average across subjects FIRST and then take the
NaN-ignoring mean over each network's column range.  Kept separate from
`clusterJointMF`, which is the source's joint average, for comparison. -/
def clusterSpecMF (n T S : ℕ) (fc : ℕ → ℕ → ℕ → ℕ → QNan)
    (bounds : List (ℕ × ℕ × ℕ)) (order : List ℕ) : List (List (List QNan)) :=
  tabL n (fun node => tabL T (fun t =>
    bounds.map (fun b =>
      nanmean ((List.range' b.1 (b.2.1 + 1 - b.1)).map
        (fun j => meanAcrossSubjs S fc (order.getD node 0) (order.getD j 0) t)))))

/-- The arrays returned by the mean-first branch of `deviation` (aggregate
form: no subject axis), as materialised buffers. -/
structure DevMFOut where
  deviationRFs : List QNan
  clusteredAffinities : List (List QNan)
  netAffinities : List (List ℚ)
  nodePrefVals : List (List QNan)
  nodePrefIdxs : List (List ℕ)
  maxMembershipsTF : List (List (List ℚ))
  sanityWarnings : List ℕ
deriving DecidableEq

/-- Everything the mean-first branch computes AFTER `clusteredTaskFC` (lines
77–142), as a function of the clustered tensor `cl` (indexed node → task →
network): preference extraction, binarised memberships, affinities, clustered
affinities, the row-sum sanity check, adherence and deviation. -/
def devPostMF (numNets T : ℕ) (cl : List (List (List QNan)))
    (bounds : List (ℕ × ℕ × ℕ)) : DevMFOut :=
  let n := cl.length
  let clAt := fun (node t : ℕ) => (cl.getD node []).getD t []
  let prefIdx := fun (node t : ℕ) => npArgmax (clAt node t)
  let netAff := fun (node k : ℕ) =>
    (tabL T (fun t => if prefIdx node t = k then (1 : ℚ) else 0)).sum / T
  let clusteredAff := fun (k j : ℕ) =>
    let b := bounds.getD k (0, 0, 0)
    nanmean ((List.range' b.1 (b.2.1 + 1 - b.1)).map (fun node => some (netAff node j)))
  { deviationRFs := tabL numNets (fun k => qnanSub (some 1) (clusteredAff k k))
    clusteredAffinities := tabL numNets (fun k => tabL numNets (fun j => clusteredAff k j))
    netAffinities := tabL n (fun node => tabL numNets (fun k => netAff node k))
    nodePrefVals := tabL n (fun node => tabL T (fun t => npMax (clAt node t)))
    nodePrefIdxs := tabL n (fun node => tabL T (fun t => prefIdx node t))
    maxMembershipsTF := tabL n (fun node => tabL T (fun t =>
      tabL numNets (fun k => if prefIdx node t = k then (1 : ℚ) else 0)))
    sanityWarnings := (List.range numNets).filter (fun k =>
      qnanLtB (qnanMul (npSum (tabL numNets (fun j => clusteredAff k j))) 100) (999 / 10)) }

/-- The mean-first branch of `deviation` (`useMeanFirst=True`): the source's
joint block-and-subject average feeding the shared post-clustering pipeline. -/
def deviation_meanFirst (n numNets T S : ℕ) (fc : ℕ → ℕ → ℕ → ℕ → QNan)
    (bounds : List (ℕ × ℕ × ℕ)) (order : List ℕ) : DevMFOut :=
  devPostMF numNets T (clusterJointMF n T S fc bounds order) bounds

/-- Modelled from the spec's words: the mean-first pipeline as the spec
describes it — average across subjects first, then cluster and extract
preferences on the subject-averaged matrix. -/
def deviation_meanFirst_specModel (n numNets T S : ℕ) (fc : ℕ → ℕ → ℕ → ℕ → QNan)
    (bounds : List (ℕ × ℕ × ℕ)) (order : List ℕ) : DevMFOut :=
  devPostMF numNets T (clusterSpecMF n T S fc bounds order) bounds
/-!
## Well-formed partitions and the a-priori affiliation vector
-/

/-- Well-formed `netBoundaries` over `n` nodes (the §3 invariants: rows are
`(start, end, size)` with inclusive `end`, sizes consistent, consecutive rows
contiguous, jointly covering `0..n-1` starting at 0). -/
def WFBounds (bounds : List (ℕ × ℕ × ℕ)) (n : ℕ) : Prop :=
  (∀ k, k < bounds.length →
    (bounds.getD k (0, 0, 0)).1 ≤ (bounds.getD k (0, 0, 0)).2.1 ∧
    (bounds.getD k (0, 0, 0)).2.2 = (bounds.getD k (0, 0, 0)).2.1 + 1 - (bounds.getD k (0, 0, 0)).1)
  ∧ (∀ k, k + 1 < bounds.length →
    (bounds.getD (k + 1) (0, 0, 0)).1 = (bounds.getD k (0, 0, 0)).2.1 + 1)
  ∧ (0 < bounds.length → (bounds.getD 0 (0, 0, 0)).1 = 0 ∧
      (bounds.getD (bounds.length - 1) (0, 0, 0)).2.1 + 1 = n)
  ∧ (bounds.length = 0 → n = 0)

/-- The a-priori affiliation vector induced by `netBoundaries`: node positions
`start_k .. end_k` carry network id `k`, i.e. `size_k` copies of each id `k` in
ascending order. -/
def origAffil (bounds : List (ℕ × ℕ × ℕ)) : List ℕ :=
  (List.range bounds.length).flatMap (fun k => List.replicate (bounds.getD k (0, 0, 0)).2.2 k)

/-!
## Concrete inputs used by witnesses and counterexamples
-/

/-- 2×2 connectivity with a zero diagonal. -/
def fcA1 : ℕ → ℕ → QNan := fun i j =>
  if i = 0 ∧ j = 0 then some 0 else
  if i = 0 ∧ j = 1 then some 1 else
  if i = 1 ∧ j = 0 then some 1 else some 0

/-- Same as `fcA1` except on the diagonal entry `(0,0)`. -/
def fcB1 : ℕ → ℕ → QNan := fun i j =>
  if i = 0 ∧ j = 0 then some 1 else
  if i = 0 ∧ j = 1 then some 1 else
  if i = 1 ∧ j = 0 then some 1 else some 0

/-- The two-element one-indexed affiliation vector `[1, 2]`. -/
def affil12 : ℕ → ℕ := fun i => if i = 0 then 1 else 2

/-- 4-D array with diagonal 1 and off-diagonal 0. -/
def fcDiag1 : ℕ → ℕ → ℕ → ℕ → QNan := fun i j _ _ => if i = j then some 1 else some 0

/-- 4-D array with diagonal 2 and off-diagonal 0 (differs from `fcDiag1` only
on the diagonal). -/
def fcDiag2 : ℕ → ℕ → ℕ → ℕ → QNan := fun i j _ _ => if i = j then some 2 else some 0

/-- Constant 2-D array of fives. -/
def fcFives2D : ℕ → ℕ → QNan := fun _ _ => some 5

/-- Constant 4-D array of fives. -/
def fcFives4D : ℕ → ℕ → ℕ → ℕ → QNan := fun _ _ _ _ => some 5

/-- Boundaries of two size-2 networks over 4 nodes: rows `[0 1 2]` and `[2 3 2]`. -/
def boundsTwo2 : List (ℕ × ℕ × ℕ) := [(0, 1, 2), (2, 3, 2)]

/-- The identity node order on 4 nodes. -/
def order4 : List ℕ := [0, 1, 2, 3]

/-- Resting 4-node, 1-subject connectivity whose first `restPartitionAdjuster`
run reassigns nodes 0 and 3 away from / into quorum-backed consensus while
every node's `percentAgree` is 1: rows hold NaN exactly on the network block
the node will prefer (all-NaN Fisher means sort first in the descending
argsort), finite values elsewhere. -/
def fcC6 : ℕ → ℕ → ℕ → QNan := fun i j _ =>
  if i = 0 then (if j = 0 then some 0 else if j = 1 then some (3/10) else none)
  else if i = 1 then (if j = 0 then none else if j = 1 then some 0
    else if j = 2 then some (1/10) else some (1/5))
  else if i = 2 then (if j = 0 then none else if j = 1 then none
    else if j = 2 then some 0 else some (2/5))
  else (if j = 0 then some (3/5) else if j = 1 then some (1/2)
    else if j = 2 then none else some 0)

/-- Resting 4-node, 1-subject connectivity on which every node prefers its own
network (NaN exactly on the own-network block), so the consensus equals the
a-priori assignment. -/
def fcW6 : ℕ → ℕ → ℕ → QNan := fun i j _ =>
  if i ≤ 1 then (if j = 0 then (if i = 0 then some 0 else none)
    else if j = 1 then (if i = 0 then none else some 0)
    else if j = 2 then some (1/10) else some (1/5))
  else (if j = 0 then some (1/10) else if j = 1 then some (1/5)
    else if j = 2 then (if i = 2 then some 0 else none)
    else if i = 2 then none else some 0)

/-- Resting 2-node, 1-subject connectivity (single network). -/
def fcW3 : ℕ → ℕ → ℕ → QNan := fun i j _ => if i = j then some 0 else some (1/2)

/-- A single network spanning both nodes: row `[0 1 2]`. -/
def boundsOne2 : List (ℕ × ℕ × ℕ) := [(0, 1, 2)]

/-- The identity node order on 2 nodes. -/
def order2 : List ℕ := [0, 1]

/-- The identity node order on 3 nodes. -/
def order3 : List ℕ := [0, 1, 2]

/-- Boundaries over 3 nodes: a size-2 network `[0 1 2]` and a size-1 network
`[2 2 1]`. -/
def bounds5 : List (ℕ × ℕ × ℕ) := [(0, 1, 2), (2, 2, 1)]

/-- 3-node, 1-task, 2-subject connectivity with a NaN at `(0,0)` for subject 1:
the joint block/subject average and the subjects-first average weight the NaN
differently, flipping node 0's preferred network. -/
def fc5 : ℕ → ℕ → ℕ → ℕ → QNan := fun i j _ s =>
  if i = 0 then (if j = 0 then (if s = 0 then some 0 else none)
    else if j = 1 then (if s = 0 then some 0 else some 1) else some (3/10))
  else if i = 1 then (if j ≤ 1 then some (1/2) else some 0)
  else (if j ≤ 1 then some 0 else some (1/2))

/-- All-some 1-node connectivity. -/
def fcOne : ℕ → ℕ → ℕ → ℕ → QNan := fun _ _ _ _ => some 1

/-- A single size-1 network: row `[0 0 1]`. -/
def boundsOne1 : List (ℕ × ℕ × ℕ) := [(0, 0, 1)]

/-- The identity node order on 1 node. -/
def order1 : List ℕ := [0]

/-- 2×2 connectivity whose node 0 has its only nonzero edge inside its own
module: row 0 is `[1, 0]`. -/
def fcP9 : ℕ → ℕ → QNan := fun i j =>
  if i = 0 ∧ j = 0 then some 1 else
  if i = 0 ∧ j = 1 then some 0 else
  if i = 1 ∧ j = 0 then some 0 else some 1

/-!
## Generic lemmas about the embedding's buffers and reductions
-/

/-- List-level sum of a tabulated buffer as a `Finset.range` sum. -/
theorem sum_tabL {M : Type} [AddCommMonoid M] (n : ℕ) (f : ℕ → M) :
    (tabL n f).sum = ∑ i ∈ Finset.range n, f i := by
  induction n with
  | zero => simp [tabL]
  | succ m ih =>
    rw [tabL, List.range_succ, List.map_append, List.sum_append,
      Finset.sum_range_succ, ← tabL, ih]
    simp

/-- Summing with NaNs skipped equals summing with NaNs read as 0. -/
theorem filterMap_id_sum (l : List QNan) :
    (l.filterMap id).sum = (l.map (·.getD 0)).sum := by
  induction l with
  | nil => rfl
  | cons x xs ih => cases x <;> simp [List.filterMap_cons, ih]

/-- `nansum` of a tabulated buffer: each NaN contributes 0. -/
theorem nansum_tabL (n : ℕ) (f : ℕ → QNan) :
    nansum (tabL n f) = ∑ i ∈ Finset.range n, (f i).getD 0 := by
  rw [nansum, filterMap_id_sum, tabL, List.map_map, ← tabL, sum_tabL]
  rfl

/-- Length of a tabulated buffer. -/
theorem length_tabL (n : ℕ) (f : ℕ → α) : (tabL n f).length = n := by
  simp [tabL]

/-- In-range read of a tabulated buffer. -/
theorem getD_tabL (n : ℕ) (f : ℕ → α) (d : α) (i : ℕ) (h : i < n) :
    (tabL n f).getD i d = f i := by
  simp [tabL, List.getD_eq_getElem?_getD, List.getElem?_map, List.getElem?_range h]

/-- Tabulated buffers agree when the generators agree on the index range. -/
theorem tabL_congr {n : ℕ} {f g : ℕ → α} (h : ∀ i, i < n → f i = g i) :
    tabL n f = tabL n g :=
  List.map_congr_left (fun i hi => h i (List.mem_range.mp hi))

/-- Sum over a `List.range'` window as a `Finset.range` sum. -/
theorem sum_range'_map (a m : ℕ) (f : ℕ → ℚ) :
    ((List.range' a m).map f).sum = ∑ i ∈ Finset.range m, f (a + i) := by
  rw [List.range'_eq_map_range, List.map_map, ← sum_tabL]
  rfl

/-!
## C1 — the diagonal and the aggregate scores
-/

/-- C1 (counterexample): `participation_coefficient_sign` is NOT invariant
under diagonal changes.  `fcA1` and `fcB1` agree on every off-diagonal entry
of the 2×2 grid yet produce different participation vectors, because the
source never excludes the diagonal (the degree row-sums and the network masks
both read it). -/
theorem participation_diag_dependent :
    participation_coefficient_sign 2 2 fcA1 affil12 ≠
      participation_coefficient_sign 2 2 fcB1 affil12 ∧
    fcA1 0 1 = fcB1 0 1 ∧ fcA1 1 0 = fcB1 1 0 ∧ fcA1 1 1 = fcB1 1 1 := by
  refine ⟨?_, rfl, rfl, rfl⟩
  have hA : participation_coefficient_sign 2 2 fcA1 affil12 = [0, 0] := by
    norm_num [participation_coefficient_sign, tabL, partCoefRaw, qnanSub, qnanDiv,
      squareDegreesPC, arrHerePC, sumVecPC, degreeOfROIs, nansum, netAffilMask,
      mulMask, isNzB, fcA1, affil12, List.range_succ, List.range'_succ, List.filterMap]
  have hB : participation_coefficient_sign 2 2 fcB1 affil12 = [1/2, 0] := by
    norm_num [participation_coefficient_sign, tabL, partCoefRaw, qnanSub, qnanDiv,
      squareDegreesPC, arrHerePC, sumVecPC, degreeOfROIs, nansum, netAffilMask,
      mulMask, isNzB, fcB1, affil12, List.range_succ, List.range'_succ, List.filterMap]
  rw [hA, hB]
  intro h
  exact absurd (List.head_eq_of_cons_eq h) (by norm_num)

/-- C1 (amended): for the functions that exclude the diagonal internally the
spec's property does hold — `gvc` NaN-fills the diagonal of its working slices,
so two arrays agreeing off the diagonal (on the index grid) produce identical
GVC outputs, for every standard-deviation kernel `sq`. -/
theorem gvc_diag_invariant (sq : ℚ → ℚ) (n T S : ℕ)
    (fc fc' : ℕ → ℕ → ℕ → ℕ → QNan)
    (h : ∀ i j t s, i < n → j < n → t < T → s < S → i ≠ j → fc i j t s = fc' i j t s) :
    gvc sq n T S fc = gvc sq n T S fc' := by
  unfold gvc
  refine tabL_congr (fun i hi => tabL_congr (fun s hs => ?_))
  refine congrArg nanmean (tabL_congr (fun j hj => congrArg (nanstd sq) (tabL_congr (fun t ht => ?_))))
  by_cases hij : i = j
  · simp [gvcEntry, hij]
  · simp only [gvcEntry, if_neg hij]
    exact h i j t s hi hj ht hs hij

/-- C1 (witness for the amended statement): two 2-node arrays differing only on
the diagonal have equal GVC outputs. -/
theorem gvc_diag_invariant_witness : gvc id 2 1 1 fcDiag1 = gvc id 2 1 1 fcDiag2 :=
  gvc_diag_invariant id 2 1 1 fcDiag1 fcDiag2
    (fun i j t s _ _ _ _ hne => by simp [fcDiag1, fcDiag2, if_neg hne])

/-!
## C2 — mutation of the caller's array
-/

/-- C2 (evaluation at the failing input): both `gateway_coefficient_sign` and
`gvc` change the caller's `fcArray`.  After `gateway_coefficient_sign` the
diagonal entry `(0,0)` of a 2×2 array of fives reads 0, and after `gvc` the
diagonal entry `(0,0,0,0)` of a 1-node array of fives reads NaN — both differ
from the pristine value 5 the claim promises. -/
theorem gateway_gvc_mutate_caller : 
    gateway_fcArray_after 2 fcFives2D 0 0 = some 0 ∧ fcFives2D 0 0 = some 5 ∧
    gvc_fcArray_after 1 1 1 fcFives4D 0 0 0 0 = none ∧ fcFives4D 0 0 0 0 = some 5 := by
  refine ⟨?_, rfl, ?_, rfl⟩ <;>
    simp [gateway_fcArray_after, gvc_fcArray_after]

/-!
## C9 — participation coefficient zero rules
-/

/-- C9: `participation_coefficient_sign` returns exactly 0 for a node of zero
total degree, and exactly 0 for a node (with a valid one-indexed affiliation)
whose nonzero edges all stay inside its own module. -/
theorem participation_zero_rules (n numNets : ℕ) (fc : ℕ → ℕ → QNan)
    (affil : ℕ → ℕ) (node : ℕ) (hn : node < n) :
    (degreeOfROIs n fc node = 0 →
      (participation_coefficient_sign n numNets fc affil).getD node 0 = 0) ∧
    (1 ≤ affil node → affil node ≤ numNets →
      (∀ j, j < n → affil j ≠ affil node → fc node j = none ∨ fc node j = some 0) →
      (participation_coefficient_sign n numNets fc affil).getD node 0 = 0) := by
  have hpc : (participation_coefficient_sign n numNets fc affil).getD node 0 =
      (if (if degreeOfROIs n fc node = 0 then 0
           else (partCoefRaw n numNets fc affil node).getD 0) = 0 then 0
       else if degreeOfROIs n fc node = 0 then 0
       else (partCoefRaw n numNets fc affil node).getD 0) :=
    getD_tabL n _ 0 node hn
  constructor
  · intro hd
    rw [hpc, if_pos (by rw [if_pos hd])]
  · intro h1 h2 hconf
    have hA : sumVecPC n fc affil (affil node) node = degreeOfROIs n fc node := by
      rw [sumVecPC, nansum_tabL, degreeOfROIs, nansum_tabL]
      refine Finset.sum_congr rfl (fun j hj => ?_)
      have hjn := Finset.mem_range.mp hj
      cases hfc : fc node j with
      | none => simp [mulMask, hfc]
      | some x =>
        by_cases hx : x = 0
        · simp [mulMask, hfc, hx]
        · have haf : affil j = affil node := by
            by_contra hne
            rcases hconf j hjn hne with h' | h' <;> rw [hfc] at h'
            · exact Option.noConfusion h'
            · exact hx (Option.some.inj h')
          simp [mulMask, hfc, netAffilMask, isNzB, hx, haf]
    have hB : ∀ m, m ≠ affil node → sumVecPC n fc affil m node = 0 := by
      intro m hm
      rw [sumVecPC, nansum_tabL]
      refine Finset.sum_eq_zero (fun j hj => ?_)
      have hjn := Finset.mem_range.mp hj
      cases hfc : fc node j with
      | none => simp [mulMask, hfc]
      | some x =>
        by_cases hx : x = 0
        · simp [mulMask, hfc, hx]
        · by_cases haf : affil j = affil node
          · simp [mulMask, hfc, netAffilMask, isNzB, hx, haf, Ne.symm hm]
          · rcases hconf j hjn haf with h' | h' <;> rw [hfc] at h'
            · exact absurd h' (Option.noConfusion ·)
            · exact absurd (Option.some.inj h') hx
    have harr : arrHerePC n numNets fc affil node = (degreeOfROIs n fc node) ^ 2 := by
      rw [arrHerePC, sum_range'_map,
        Finset.sum_eq_single_of_mem (affil node - 1)
          (Finset.mem_range.mpr (by omega))
          (fun i _ hne => by rw [hB (1 + i) (by omega)]; ring),
        (by omega : 1 + (affil node - 1) = affil node), hA]
    by_cases hd : degreeOfROIs n fc node = 0
    · rw [hpc, if_pos (by rw [if_pos hd])]
    · have hraw : partCoefRaw n numNets fc affil node = some 0 := by
        rw [partCoefRaw, squareDegreesPC, if_neg (pow_ne_zero 2 hd), harr, qnanDiv,
          qnanSub, div_self (pow_ne_zero 2 hd)]
        norm_num
      rw [hpc, hraw]
      simp [hd]

/-- C9 (witness): node 0 of `fcP9` has its single nonzero edge inside its own
module (id 1), and its participation score is exactly 0. -/
theorem participation_zero_rules_witness :
    (participation_coefficient_sign 2 2 fcP9 affil12).getD 0 0 = 0 :=
  (participation_zero_rules 2 2 fcP9 affil12 0 (by norm_num)).2
    (by norm_num [affil12]) (by norm_num [affil12])
    (fun j hj hne => by
      interval_cases j
      · exact absurd rfl hne
      · exact Or.inr rfl)

/-!
## Per-subject binarised memberships (exact-arithmetic row sums)
-/

/-- A reported first-NaN index is in range. -/
theorem firstNoneIdx_lt_length : ∀ {l : List QNan} {i : ℕ},
    firstNoneIdx l = some i → i < l.length := by
  intro l
  induction l with
  | nil => intro i h; exact absurd h (by simp [firstNoneIdx])
  | cons x xs ih =>
    intro i h
    cases x with
    | none =>
      simp only [firstNoneIdx, Option.some.injEq] at h
      simp only [List.length_cons, ← h]
      omega
    | some v =>
      simp only [firstNoneIdx, Option.map_eq_some'] at h
      obtain ⟨j, hj, rfl⟩ := h
      have := ih hj
      simp only [List.length_cons]
      omega

/-- Without NaNs, skipping them keeps the window length. -/
theorem filterMap_id_length_of_no_none : ∀ {l : List QNan},
    firstNoneIdx l = none → (l.filterMap id).length = l.length := by
  intro l
  induction l with
  | nil => intro _; rfl
  | cons x xs ih =>
    intro h
    cases x with
    | none => exact absurd h (by simp [firstNoneIdx])
    | some v =>
      simp only [firstNoneIdx, Option.map_eq_none'] at h
      simp [List.filterMap_cons, ih h]

/-- The running first-argmax scan stays below the end of the window. -/
theorem firstArgmaxQAux_lt : ∀ (xs : List ℚ) (bi : ℕ) (bv : ℚ) (i : ℕ),
    bi < i → firstArgmaxQAux bi bv i xs < i + xs.length := by
  intro xs
  induction xs with
  | nil => intro bi bv i h; simpa [firstArgmaxQAux] using h
  | cons x xs ih =>
    intro bi bv i h
    simp only [firstArgmaxQAux, List.length_cons]
    by_cases hlt : bv < x
    · rw [if_pos hlt]
      have := ih i x (i + 1) (by omega)
      omega
    · rw [if_neg hlt]
      have := ih bi bv (i + 1) (by omega)
      omega

/-- `firstArgmaxQ` of a nonempty window is in range. -/
theorem firstArgmaxQ_lt_length {l : List ℚ} (h : l ≠ []) : firstArgmaxQ l < l.length := by
  cases l with
  | nil => exact absurd rfl h
  | cons x xs =>
    have := firstArgmaxQAux_lt xs 0 x 1 (by omega)
    simp only [firstArgmaxQ, List.length_cons]
    omega

/-- `np.argmax` of a nonempty window is in range. -/
theorem npArgmax_lt_length {l : List QNan} (h : l ≠ []) : npArgmax l < l.length := by
  rw [npArgmax]
  cases hfn : firstNoneIdx l with
  | some i => exact firstNoneIdx_lt_length hfn
  | none =>
    rw [← filterMap_id_length_of_no_none hfn]
    refine firstArgmaxQ_lt_length (fun hnil => ?_)
    have := filterMap_id_length_of_no_none hfn
    rw [hnil] at this
    cases l with
    | nil => exact absurd rfl h
    | cons x xs => exact absurd this.symm (by simp)

/-- The per-subject preference index is a valid network index. -/
theorem nodePrefIdxs_PS_lt (numNets : ℕ) (fc : ℕ → ℕ → ℕ → ℕ → QNan)
    (bounds : List (ℕ × ℕ × ℕ)) (order : List ℕ) (node t s : ℕ) (hN : 0 < numNets) :
    nodePrefIdxs_PS numNets fc bounds order node t s < numNets := by
  rw [nodePrefIdxs_PS]
  have hne : tabL numNets (fun k => clusteredTaskFC_PS fc bounds order node k t s) ≠ [] := by
    intro hnil
    have := length_tabL numNets (fun k => clusteredTaskFC_PS fc bounds order node k t s)
    rw [hnil] at this
    simp at this
    omega
  have := npArgmax_lt_length hne
  rwa [length_tabL] at this

/-- Exact-arithmetic invariant of the per-subject branch (auxiliary): every
(node, task, subject) has exactly one 1 across the network axis of
`maxMembershipsTF` (the single argmax network), and in the rational model
every row of `netAffinities` sums to 1.  Whether the stored IEEE doubles
`count/T` sum to EXACTLY 1.0 is a rounding question this embedding cannot
express (e.g. ten stored copies of `double(0.1)` sum to `0.9999999999999999`),
so the row-sum conclusion here is an exact-arithmetic statement only; the
one-1-per-row conclusion is an integer fact that also holds in doubles. -/
theorem perSubject_membership_row_sums (numNets T : ℕ) (fc : ℕ → ℕ → ℕ → ℕ → QNan)
    (bounds : List (ℕ × ℕ × ℕ)) (order : List ℕ) (node t s : ℕ)
    (hN : 0 < numNets) (hT : 0 < T) :
    (∑ k ∈ Finset.range numNets, maxMembershipsTF_PS numNets fc bounds order node t k s) = 1 ∧
    (∑ k ∈ Finset.range numNets, netAffinities_PS numNets T fc bounds order node k s) = 1 := by
  have hone : ∀ t', (∑ k ∈ Finset.range numNets,
      maxMembershipsTF_PS numNets fc bounds order node t' k s) = 1 := by
    intro t'
    unfold maxMembershipsTF_PS
    rw [Finset.sum_ite_eq]
    exact if_pos (Finset.mem_range.mpr (nodePrefIdxs_PS_lt numNets fc bounds order node t' s hN))
  refine ⟨hone t, ?_⟩
  unfold netAffinities_PS
  have : ∀ k, (tabL T (fun t' => maxMembershipsTF_PS numNets fc bounds order node t' k s)).sum
      = ∑ t' ∈ Finset.range T, maxMembershipsTF_PS numNets fc bounds order node t' k s :=
    fun k => sum_tabL T _
  simp only [this]
  rw [← Finset.sum_div, Finset.sum_comm]
  have : ∀ t' ∈ Finset.range T, (∑ k ∈ Finset.range numNets,
      maxMembershipsTF_PS numNets fc bounds order node t' k s) = 1 :=
    fun t' _ => hone t'
  rw [Finset.sum_congr rfl this, Finset.sum_const, Finset.card_range, nsmul_eq_mul, mul_one,
    div_self (by exact_mod_cast hT.ne')]

/-- Concrete instance of the exact-arithmetic membership invariant: a
per-subject run with one network and one task. -/
theorem perSubject_membership_row_sums_witness :
    (∑ k ∈ Finset.range 1, maxMembershipsTF_PS 1 fcOne boundsOne1 order1 0 0 k 0) = 1 ∧
    (∑ k ∈ Finset.range 1, netAffinities_PS 1 1 fcOne boundsOne1 order1 0 k 0) = 1 :=
  perSubject_membership_row_sums 1 1 fcOne boundsOne1 order1 0 0 0
    (by norm_num) (by norm_num)

/-!
## C7 — the row-sum sanity check is non-fatal
-/

/-- C7: the per-subject sanity check changes nothing and raises nothing: the
six returned arrays equal those of the check-free pipeline, and the check's
diagnostics name exactly the (subject, network) pairs whose clustered-affinity
row sums below the 99.9% threshold (a NaN row sum fails the comparison and is
never reported). -/
theorem perSubject_check_nonfatal (numNets T S : ℕ) (fc : ℕ → ℕ → ℕ → ℕ → QNan)
    (bounds : List (ℕ × ℕ × ℕ)) (order : List ℕ) :
    (deviation_perSubject numNets T S fc bounds order).1 =
      deviation_perSubject_noCheck numNets T fc bounds order ∧
    ∀ s k, ((s, k) ∈ (deviation_perSubject numNets T S fc bounds order).2 ↔
      s < S ∧ k < numNets ∧
      qnanLtB (qnanMul (affRowSum_PS numNets T fc bounds order k s) 100) (999 / 10) = true) := by
  refine ⟨rfl, fun s k => ?_⟩
  simp only [deviation_perSubject, sanityWarnings_PS, List.mem_flatMap, List.mem_map,
    List.mem_filter, List.mem_range, Prod.mk.injEq]
  constructor
  · rintro ⟨s', hs', ⟨k', ⟨hk', hcond⟩, rfl, rfl⟩⟩
    exact ⟨hs', hk', hcond⟩
  · rintro ⟨hs, hk, hcond⟩
    exact ⟨s, hs, k, ⟨hk, hcond⟩, rfl, rfl⟩

/-!
## C3 — the consensus decision rule
-/

/-- A fold of writes preserves the buffer length. -/
theorem foldl_set_length (l : List ℕ) (g : ℕ → ℕ) (acc : List ℕ) :
    (l.foldl (fun a i => a.set i (g i)) acc).length = acc.length := by
  induction l generalizing acc with
  | nil => rfl
  | cons x xs ih => rw [List.foldl_cons, ih, List.length_set]

/-- A fold of writes leaves untouched cells unchanged. -/
theorem foldl_set_getD_not_mem (l : List ℕ) (g : ℕ → ℕ) (acc : List ℕ) (node : ℕ)
    (h : node ∉ l) :
    (l.foldl (fun a i => a.set i (g i)) acc).getD node 0 = acc.getD node 0 := by
  induction l generalizing acc with
  | nil => rfl
  | cons x xs ih =>
    rw [List.foldl_cons, ih _ (fun hm => h (List.mem_cons_of_mem x hm)),
      List.getD_eq_getElem?_getD,
      List.getElem?_set_ne (fun hxn => h (by rw [← hxn]; exact List.mem_cons_self x xs)),
      ← List.getD_eq_getElem?_getD]

/-- A fold of writes at indices `l` reads back the written value on touched
in-range cells. -/
theorem foldl_set_getD (l : List ℕ) (g : ℕ → ℕ) (acc : List ℕ) (node : ℕ)
    (h : node < acc.length) :
    (l.foldl (fun a i => a.set i (g i)) acc).getD node 0 =
      if node ∈ l then g node else acc.getD node 0 := by
  induction l generalizing acc with
  | nil => simp
  | cons x xs ih =>
    rw [List.foldl_cons, ih _ (by rw [List.length_set]; exact h)]
    by_cases hx : node ∈ xs
    · simp [hx, List.mem_cons]
    · by_cases hnx : node = x
      · subst hnx
        simp only [hx, if_false, List.mem_cons, true_or, if_true]
        rw [List.getD_eq_getElem?_getD, List.getElem?_set_self h]
        rfl
      · simp only [hx, if_false, List.mem_cons, hnx, false_or, if_false]
        rw [List.getD_eq_getElem?_getD,
          List.getElem?_set_ne (fun hxn => hnx hxn.symm),
          ← List.getD_eq_getElem?_getD]

/-- A two-level fold of ranged writes leaves a node untouched when no window
covers it. -/
theorem foldl_win_set_getD_not_mem (ks : List ℕ) (win : ℕ → List ℕ) (g : ℕ → ℕ → ℕ)
    (acc : List ℕ) (node : ℕ) (h : ∀ k' ∈ ks, node ∉ win k') :
    (ks.foldl (fun a k' => (win k').foldl (fun a' i => a'.set i (g k' i)) a) acc).getD node 0 =
      acc.getD node 0 := by
  induction ks generalizing acc with
  | nil => rfl
  | cons k₀ ks ih =>
    rw [List.foldl_cons, ih _ (fun k' hk' => h k' (List.mem_cons_of_mem k₀ hk')),
      foldl_set_getD_not_mem _ _ _ _ (h k₀ (List.mem_cons_self k₀ ks))]

/-- A two-level fold of ranged writes reads back the value written by the
unique window covering an in-range node. -/
theorem foldl_win_set_getD (ks : List ℕ) (win : ℕ → List ℕ) (g : ℕ → ℕ → ℕ)
    (acc : List ℕ) (node : ℕ) (h : node < acc.length) (k : ℕ) (hk : k ∈ ks)
    (hcov : node ∈ win k) (huniq : ∀ k' ∈ ks, node ∈ win k' → k' = k) :
    (ks.foldl (fun a k' => (win k').foldl (fun a' i => a'.set i (g k' i)) a) acc).getD node 0 =
      g k node := by
  induction ks generalizing acc with
  | nil => exact absurd hk (List.not_mem_nil k)
  | cons k₀ ks ih =>
    rw [List.foldl_cons]
    by_cases hex : ∃ k' ∈ ks, node ∈ win k'
    · obtain ⟨k', hk', hcov'⟩ := hex
      have hkk : k' = k := huniq k' (List.mem_cons_of_mem k₀ hk') hcov'
      subst hkk
      exact ih _ (by rw [foldl_set_length]; exact h) hk'
        (fun k'' hk'' hcov'' => huniq k'' (List.mem_cons_of_mem k₀ hk'') hcov'')
    · push_neg at hex
      have hk0 : k = k₀ := by
        rcases List.mem_cons.mp hk with h' | h'
        · exact h'
        · exact absurd hcov (hex k h')
      subst hk0
      rw [foldl_win_set_getD_not_mem ks win g _ node hex,
        foldl_set_getD _ _ _ _ h, if_pos hcov]

/-- C3: the consensus decision rule.  For a node inside network `k`'s boundary
range (and no other range), `restConsensus[node]` is the node's original
network id `k` when its `percentAgree` is below one half, and the modal
preferred network index otherwise. -/
theorem consensus_decision_rule (aF tF : QNan → QNan) (n S : ℕ)
    (fc : ℕ → ℕ → ℕ → QNan) (bounds : List (ℕ × ℕ × ℕ)) (order : List ℕ)
    (k node : ℕ) (hn : node < n) (hk : k < bounds.length)
    (hcov : (bounds.getD k (0, 0, 0)).1 ≤ node ∧ node ≤ (bounds.getD k (0, 0, 0)).2.1)
    (huniq : ∀ k', k' < bounds.length → k' ≠ k →
      ¬((bounds.getD k' (0, 0, 0)).1 ≤ node ∧ node ≤ (bounds.getD k' (0, 0, 0)).2.1)) :
    (restConsensusOf aF tF n S fc bounds order).getD node 0 =
      if (percentAgreeOf aF tF n S fc bounds order).getD node 0 < 1 / 2 then k
      else (restModeListOf aF tF n S fc bounds order).getD node 0 := by
  have hmem : ∀ k', node ∈ List.range' (bounds.getD k' (0, 0, 0)).1
      ((bounds.getD k' (0, 0, 0)).2.1 + 1 - (bounds.getD k' (0, 0, 0)).1) ↔
      ((bounds.getD k' (0, 0, 0)).1 ≤ node ∧ node ≤ (bounds.getD k' (0, 0, 0)).2.1) := by
    intro k'
    rw [List.mem_range'_1]
    omega
  rw [restConsensusOf]
  exact foldl_win_set_getD (List.range bounds.length)
    (fun k' => List.range' (bounds.getD k' (0, 0, 0)).1
      ((bounds.getD k' (0, 0, 0)).2.1 + 1 - (bounds.getD k' (0, 0, 0)).1))
    (fun k' node' =>
      if (percentAgreeOf aF tF n S fc bounds order).getD node' 0 < 1 / 2 then k'
      else (restModeListOf aF tF n S fc bounds order).getD node' 0)
    (List.replicate n 0) node (by rw [List.length_replicate]; exact hn)
    k (List.mem_range.mpr hk) ((hmem k).mpr hcov)
    (fun k' hk' hcov' => by
      by_contra hne
      exact huniq k' (List.mem_range.mp hk') hne ((hmem k').mp hcov'))

/-- C3 (witness): on a 2-node single-network resting run, node 0's consensus
assignment follows the decision rule. -/
theorem consensus_decision_rule_witness :
    (restConsensusOf id id 2 1 fcW3 boundsOne2 order2).getD 0 0 =
      if (percentAgreeOf id id 2 1 fcW3 boundsOne2 order2).getD 0 0 < 1 / 2 then 0
      else (restModeListOf id id 2 1 fcW3 boundsOne2 order2).getD 0 0 :=
  consensus_decision_rule id id 2 1 fcW3 boundsOne2 order2 0 0
    (by norm_num) (by norm_num [boundsOne2])
    (by norm_num [boundsOne2]) (by norm_num [boundsOne2])

/-!
## C8 — failure exactly on an empty consensus network
-/

/-- The position set of `k` is nonempty exactly when `k` occurs in the vector. -/
theorem finderOf_ne_nil_iff (ind : List ℕ) (k : ℕ) : finderOf ind k ≠ [] ↔ k ∈ ind := by
  rw [finderOf, Ne, List.filter_eq_nil_iff]
  push_neg
  constructor
  · rintro ⟨i, hi, hp⟩
    have hlt := List.mem_range.mp hi
    have := List.getD_eq_getElem ind 0 hlt
    rw [of_decide_eq_true hp] at this
    exact this ▸ List.getElem_mem hlt
  · intro hmem
    obtain ⟨i, hlt, hget⟩ := List.mem_iff_getElem.mp hmem
    exact ⟨i, List.mem_range.mpr hlt, decide_eq_true
      (by rw [List.getD_eq_getElem ind 0 hlt]; exact hget)⟩

/-- An `Except.map` is `ok` exactly when its argument is. -/
theorem except_map_ok_iff {α β : Type} (f : α → β) (e : Except Unit α) :
    (∃ b, e.map f = Except.ok b) ↔ ∃ a, e = Except.ok a := by
  cases e <;> simp [Except.map]

/-- The reconstruction loop succeeds exactly when every requested network id
occurs in the sorted assignment vector. -/
theorem buildBoundsAux_ok_iff (ind : List ℕ) (ks : List ℕ) :
    (∃ bs, buildBoundsAux ind ks = Except.ok bs) ↔ ∀ k ∈ ks, k ∈ ind := by
  induction ks with
  | nil => simp [buildBoundsAux]
  | cons k ks ih =>
    rw [buildBoundsAux]
    cases hf : finderOf ind k with
    | nil =>
      simp only [List.head?_nil]
      constructor
      · rintro ⟨bs, hbs⟩
        exact absurd hbs (by simp)
      · intro h
        exact absurd ((finderOf_ne_nil_iff ind k).mpr (h k (List.mem_cons_self k ks))) (by rw [hf]; simp)
    | cons a as =>
      have hmem : k ∈ ind := (finderOf_ne_nil_iff ind k).mp (by rw [hf]; simp)
      have hlast : (a :: as).getLast? = some ((a :: as).getLast (by simp)) :=
        List.getLast?_eq_getLast _ _
      simp only [List.head?_cons, hlast]
      rw [except_map_ok_iff, ih]
      constructor
      · intro h k' hk'
        rcases List.mem_cons.mp hk' with rfl | h'
        · exact hmem
        · exact h k' h'
      · intro h k' hk'
        exact h k' (List.mem_cons_of_mem k hk')

/-- Every element is at most the running maximum. -/
theorem le_maxKey {l : List ℕ} {v : ℕ} (h : v ∈ l) : v ≤ maxKey l := by
  induction l with
  | nil => exact absurd h (List.not_mem_nil v)
  | cons x xs ih =>
    rcases List.mem_cons.mp h with rfl | h'
    · exact Nat.le_max_left _ _
    · exact Nat.le_trans (ih h') (Nat.le_max_right _ _)

/-- The counting sort preserves membership. -/
theorem mem_npSortNat_iff (l : List ℕ) (k : ℕ) : k ∈ npSortNat l ↔ k ∈ l := by
  rw [npSortNat, List.mem_flatMap]
  constructor
  · rintro ⟨j, _, hrep⟩
    obtain ⟨hcnt, rfl⟩ := List.mem_replicate.mp hrep
    exact List.count_pos_iff.mp (Nat.pos_of_ne_zero hcnt)
  · intro h
    exact ⟨k, List.mem_range.mpr (Nat.lt_succ_of_le (le_maxKey h)),
      List.mem_replicate.mpr ⟨Nat.pos_iff_ne_zero.mp (List.count_pos_iff.mpr h), rfl⟩⟩

/-- C8: `restPartitionAdjuster` raises exactly when some network id below
`numNets` receives zero nodes in the consensus assignment; with every network
nonempty it returns normally. -/
theorem adjuster_error_iff_empty_network (aF tF : QNan → QNan) (n S : ℕ)
    (fc : ℕ → ℕ → ℕ → QNan) (bounds : List (ℕ × ℕ × ℕ)) (order : List ℕ) :
    restPartitionAdjuster aF tF n S fc bounds order = Except.error () ↔
      ∃ k, k < bounds.length ∧
        (restConsensusOf aF tF n S fc bounds order).count k = 0 := by
  have hok : (∃ out, restPartitionAdjuster aF tF n S fc bounds order = Except.ok out) ↔
      ∀ k, k < bounds.length → k ∈ restConsensusOf aF tF n S fc bounds order := by
    rw [restPartitionAdjuster, except_map_ok_iff, buildBoundsAux_ok_iff]
    constructor
    · intro h k hk
      exact (mem_npSortNat_iff _ k).mp (h k (List.mem_range.mpr hk))
    · intro h k hk
      exact (mem_npSortNat_iff _ k).mpr (h k (List.mem_range.mp hk))
  constructor
  · intro herr
    by_contra hno
    push_neg at hno
    have : ∀ k, k < bounds.length → k ∈ restConsensusOf aF tF n S fc bounds order := by
      intro k hk
      have := hno k hk
      exact List.count_pos_iff.mp (Nat.pos_of_ne_zero this)
    obtain ⟨out, hout⟩ := hok.mpr this
    rw [herr] at hout
    exact Except.noConfusion hout
  · rintro ⟨k, hk, hcnt⟩
    cases he : restPartitionAdjuster aF tF n S fc bounds order with
    | error e => cases e; rfl
    | ok out =>
      have := hok.mp ⟨out, he⟩ k hk
      rw [← List.count_pos_iff] at this
      omega

/-!
## C4 — rebuild of the partition from the sorted consensus vector
-/

/-- Every value of a replicate-concatenation is one of its keys. -/
theorem mem_flatRep_keys {c : ℕ → ℕ} {ks : List ℕ} {v : ℕ}
    (h : v ∈ ks.flatMap (fun j => List.replicate (c j) j)) : v ∈ ks := by
  obtain ⟨j, hj, hrep⟩ := List.mem_flatMap.mp h
  obtain ⟨-, rfl⟩ := List.mem_replicate.mp hrep
  exact hj

/-- In-range reads of a list are members. -/
theorem getD_mem_of_lt {l : List ℕ} {i : ℕ} (h : i < l.length) (d : ℕ) :
    l.getD i d ∈ l := by
  rw [List.getD_eq_getElem l d h]
  exact List.getElem_mem h

/-- Position set of key `k` inside a replicate-concatenation over consecutive
keys `a, a+1, …, a+m-1`: a contiguous run starting at the total multiplicity of
the keys before `k`, of length the multiplicity of `k`. -/
theorem finder_flatRep (c : ℕ → ℕ) (k : ℕ) : ∀ (m a : ℕ), a ≤ k → k < a + m →
    finderOf ((List.range' a m).flatMap (fun j => List.replicate (c j) j)) k
      = List.range' (∑ j ∈ Finset.Ico a k, c j) (c k) := by
  intro m
  induction m with
  | zero => intro a h1 h2; omega
  | succ m ih =>
    intro a h1 h2
    rw [List.range'_succ a m 1, List.flatMap_cons, finderOf]
    have hlen : (List.replicate (c a) a ++
        (List.range' (a + 1) m).flatMap (fun j => List.replicate (c j) j)).length =
        c a + ((List.range' (a + 1) m).flatMap (fun j => List.replicate (c j) j)).length := by
      rw [List.length_append, List.length_replicate]
    rw [hlen, List.range_add, List.filter_append, List.filter_map]
    have hfirst : ∀ i ∈ List.range (c a),
        ((List.replicate (c a) a ++
          (List.range' (a + 1) m).flatMap (fun j => List.replicate (c j) j)).getD i 0 = a) := by
      intro i hi
      have hi' := List.mem_range.mp hi
      rw [List.getD_append _ _ 0 i (by rw [List.length_replicate]; exact hi')]
      simp [List.getD_eq_getElem?_getD, List.getElem?_replicate, hi']
    have hsecond : ∀ i, i < ((List.range' (a + 1) m).flatMap
          (fun j => List.replicate (c j) j)).length →
        ((List.replicate (c a) a ++
          (List.range' (a + 1) m).flatMap (fun j => List.replicate (c j) j)).getD (c a + i) 0 =
          ((List.range' (a + 1) m).flatMap (fun j => List.replicate (c j) j)).getD i 0) := by
      intro i hi
      rw [List.getD_append_right _ _ 0 (c a + i) (by rw [List.length_replicate]; omega),
        List.length_replicate]
      congr 1
      omega
    by_cases hka : k = a
    · subst hka
      have h1' : (List.filter (fun i =>
          decide ((List.replicate (c k) k ++
            (List.range' (k + 1) m).flatMap (fun j => List.replicate (c j) j)).getD i 0 = k))
          (List.range (c k))) = List.range (c k) := by
        refine List.filter_eq_self.mpr (fun i hi => decide_eq_true ?_)
        exact hfirst i hi
      have h2' : (List.filter ((fun i =>
          decide ((List.replicate (c k) k ++
            (List.range' (k + 1) m).flatMap (fun j => List.replicate (c j) j)).getD i 0 = k)) ∘
          (fun x => c k + x))
          (List.range ((List.range' (k + 1) m).flatMap (fun j => List.replicate (c j) j)).length))
          = [] := by
        refine List.filter_eq_nil_iff.mpr (fun i hi => ?_)
        have hi' := List.mem_range.mp hi
        simp only [Function.comp_apply, hsecond i hi', decide_eq_true_eq]
        intro hget
        have hmem := getD_mem_of_lt hi' 0
        rw [hget] at hmem
        have := mem_flatRep_keys hmem
        have := List.mem_range'_1.mp this
        omega
      rw [h1', h2', List.map_nil, List.append_nil, Finset.Ico_self, Finset.sum_empty,
        ← List.range_eq_range']
    · have hak : a < k := by omega
      have h1' : (List.filter (fun i =>
          decide ((List.replicate (c a) a ++
            (List.range' (a + 1) m).flatMap (fun j => List.replicate (c j) j)).getD i 0 = k))
          (List.range (c a))) = [] := by
        refine List.filter_eq_nil_iff.mpr (fun i hi => ?_)
        simp only [hfirst i hi, decide_eq_true_eq]
        omega
      have h2' : (List.filter ((fun i =>
          decide ((List.replicate (c a) a ++
            (List.range' (a + 1) m).flatMap (fun j => List.replicate (c j) j)).getD i 0 = k)) ∘
          (fun x => c a + x))
          (List.range ((List.range' (a + 1) m).flatMap (fun j => List.replicate (c j) j)).length))
          = finderOf ((List.range' (a + 1) m).flatMap (fun j => List.replicate (c j) j)) k := by
        rw [finderOf]
        refine List.filter_congr (fun i hi => ?_)
        have hi' := List.mem_range.mp hi
        simp only [Function.comp_apply, hsecond i hi']
      rw [h1', h2', List.nil_append, ih (a + 1) (by omega) (by omega),
        List.map_add_range' (c a) _ (c k) 1,
        Finset.sum_eq_sum_Ico_succ_bot hak c]

/-- With every requested key present, the reconstruction loop returns the rows
built from the head and last element of each key's position run. -/
theorem buildBoundsAux_eq_ok (ind : List ℕ) (ks : List ℕ)
    (h : ∀ k ∈ ks, finderOf ind k ≠ []) :
    buildBoundsAux ind ks = Except.ok (ks.map (fun k =>
      ((finderOf ind k).headD 0, (finderOf ind k).getLastD 0,
        (finderOf ind k).getLastD 0 - (finderOf ind k).headD 0 + 1))) := by
  induction ks with
  | nil => rfl
  | cons k ks ih =>
    rw [buildBoundsAux]
    cases hf : finderOf ind k with
    | nil => exact absurd hf (h k (List.mem_cons_self k ks))
    | cons a as =>
      simp only [List.head?_cons, List.getLast?_eq_getLast (a :: as) (by simp)]
      rw [ih (fun k' hk' => h k' (List.mem_cons_of_mem k hk'))]
      simp only [Except.map, List.map_cons, hf]
      rfl

/-- Position run of key `k` in the counting sort: starts at the total count of
smaller keys and has length `count k`. -/
theorem finder_npSortNat (cons : List ℕ) (k : ℕ) (hk : k ≤ maxKey cons) :
    finderOf (npSortNat cons) k =
      List.range' (∑ j ∈ Finset.range k, cons.count j) (cons.count k) := by
  rw [npSortNat, List.range_eq_range', Finset.range_eq_Ico]
  exact finder_flatRep (cons.count ·) k (maxKey cons + 1) 0 (Nat.zero_le k) (by omega)

/-- C4, boundary half only: the reconstructed partition rows are determined by
the value counts of the consensus vector.  `nodeIndicesNew = np.sort(...)` is
tie-order independent, so for the consensus assignment vector of any run in
which every network is populated, the reconstruction loop returns the
contiguous rows `(Σ_{j<k} count j, Σ_{j<k} count j + count k - 1, count k)`.
The claim's stability half is NOT established and fails on the code:
`nodeOrderNew = np.argsort(restConsensus)` uses numpy's default introsort,
which is documented as unstable beyond the 16-element insertion-sort regime,
so at the program's intended scale (360 nodes, 12 networks) same-network nodes
need not keep their input order; the spec's "stable sort" would require
`kind='stable'`. -/
theorem rebuild_rows_from_counts (aF tF : QNan → QNan) (n S : ℕ)
    (fc : ℕ → ℕ → ℕ → QNan) (bounds : List (ℕ × ℕ × ℕ)) (order : List ℕ)
    (cons : List ℕ) (_hcons : cons = restConsensusOf aF tF n S fc bounds order)
    (hfull : ∀ k, k < bounds.length → k ∈ cons) :
    buildBoundsAux (npSortNat cons) (List.range bounds.length)
        = Except.ok ((List.range bounds.length).map (fun k =>
            (∑ j ∈ Finset.range k, cons.count j,
             ∑ j ∈ Finset.range k, cons.count j + cons.count k - 1,
             cons.count k)))
    ∧ (∀ k, k + 1 < bounds.length →
        (∑ j ∈ Finset.range (k + 1), cons.count j)
          = (∑ j ∈ Finset.range k, cons.count j + cons.count k - 1) + 1) := by
  refine ⟨?_, ?_⟩
  · rw [buildBoundsAux_eq_ok _ _ (fun k hk =>
      (finderOf_ne_nil_iff _ _).mpr
        ((mem_npSortNat_iff _ _).mpr (hfull k (List.mem_range.mp hk))))]
    refine congrArg Except.ok (List.map_congr_left (fun k hk => ?_))
    have hkc : k ∈ cons := hfull k (List.mem_range.mp hk)
    have hc : 0 < cons.count k := List.count_pos_iff.mpr hkc
    rw [finder_npSortNat cons k (le_maxKey hkc)]
    have hhead : (List.range' (∑ j ∈ Finset.range k, cons.count j) (cons.count k)).headD 0
        = ∑ j ∈ Finset.range k, cons.count j := by
      rw [List.headD_eq_head?_getD, List.head?_range' (cons.count k), if_neg (by omega)]
      rfl
    have hlast : (List.range' (∑ j ∈ Finset.range k, cons.count j) (cons.count k)).getLastD 0
        = ∑ j ∈ Finset.range k, cons.count j + cons.count k - 1 := by
      rw [List.getLastD_eq_getLast?, List.getLast?_range' (cons.count k), if_neg (by omega)]
      rfl
    rw [hhead, hlast]
    refine Prod.ext rfl (Prod.ext rfl ?_)
    simp only
    omega
  · intro k hk1
    have hc : 0 < cons.count k := List.count_pos_iff.mpr (hfull k (by omega))
    rw [Finset.sum_range_succ]
    omega

/-- C4 (witness for the boundary half): on the concrete run of `fcC6`, the
reconstruction loop of the adjusted partition produces the contiguous rows
predicted by the counts of the consensus assignment. -/
theorem rebuild_rows_from_counts_witness :
    buildBoundsAux (npSortNat (restConsensusOf id id 4 1 fcC6 boundsTwo2 order4))
        (List.range boundsTwo2.length)
      = Except.ok ((List.range boundsTwo2.length).map (fun k =>
          (∑ j ∈ Finset.range k, (restConsensusOf id id 4 1 fcC6 boundsTwo2 order4).count j,
           ∑ j ∈ Finset.range k, (restConsensusOf id id 4 1 fcC6 boundsTwo2 order4).count j +
             (restConsensusOf id id 4 1 fcC6 boundsTwo2 order4).count k - 1,
           (restConsensusOf id id 4 1 fcC6 boundsTwo2 order4).count k))) := by
  have hcons : restConsensusOf id id 4 1 fcC6 boundsTwo2 order4 = [1, 0, 0, 1] := by
    norm_num [restConsensusOf, percentAgreeOf, restModeListOf, restPreferencesOf,
      fisherClusterVec, subjSortedCA, argsortDescHead, lastNoneIdx, lastArgmaxQ,
      lastArgmaxQAux, nanmean, modeVal, modeCount, listMinD, tabL, fcC6, boundsTwo2,
      order4, List.range_succ, List.filterMap, Option.some_ne_none, reduceCtorEq,
      show List.range' 0 2 = [0, 1] from rfl, show List.range' 2 2 = [2, 3] from rfl]
    rfl
  exact (rebuild_rows_from_counts id id 4 1 fcC6 boundsTwo2 order4
    (restConsensusOf id id 4 1 fcC6 boundsTwo2 order4) rfl
    (fun k hk => by
      rw [hcons]
      have hk2 : k < 2 := by simpa [boundsTwo2] using hk
      interval_cases k <;> simp)).1

/-!
## C6 — consensus repartition is not a fixed point under quorum alone
-/

/-- C6 (counterexample): a second `restPartitionAdjuster` run on its own output
changes the partition even though every node reached the 0.5 quorum on the
first run (`percentAgree = [1,1,1,1]` in both runs).  The first run on `fcC6`
reassigns nodes 0 and 3 (consensus `[1,0,0,1]`), reproducing the same
boundary rows `[(0,1,2),(2,3,2)]`; the second run, on those boundaries and the
combined node order, yields consensus `[1,0,1,1]` and boundary rows
`[(0,0,1),(1,3,3)]` — a different partition.  The identity stands in for
`tanh`/`arctanh`: every averaging window along this trace holds a single
finite value or only NaNs, where the real pair also acts as the identity. -/
theorem adjuster_not_idempotent :
    restPartitionAdjuster id id 4 1 fcC6 boundsTwo2 order4 =
      Except.ok ⟨[(0, 1, 2), (2, 3, 2)], [1, 2, 0, 3], [[1], [0], [0], [1]],
        [1, 1, 1, 1], [1, 0, 0, 1], [0, 0, 1, 1]⟩ ∧
    restPartitionAdjuster id id 4 1 fcC6 [(0, 1, 2), (2, 3, 2)]
        (([1, 2, 0, 3] : List ℕ).map (order4.getD · 0)) =
      Except.ok ⟨[(0, 0, 1), (1, 3, 3)], [1, 0, 2, 3], [[1], [0], [1], [1]],
        [1, 1, 1, 1], [1, 0, 1, 1], [0, 1, 1, 1]⟩ ∧
    ([(0, 1, 2), (2, 3, 2)] : List (ℕ × ℕ × ℕ)) ≠ [(0, 0, 1), (1, 3, 3)] := by
  have horder : ([1, 2, 0, 3] : List ℕ).map (order4.getD · 0) = [1, 2, 0, 3] := rfl
  have h1p : restPreferencesOf id id 4 1 fcC6 boundsTwo2 order4 = [[1], [0], [0], [1]] := by
    norm_num [restPreferencesOf, fisherClusterVec, subjSortedCA, argsortDescHead,
      lastNoneIdx, lastArgmaxQ, lastArgmaxQAux, nanmean, tabL, fcC6, boundsTwo2,
      order4, List.range_succ, List.filterMap, Option.some_ne_none, reduceCtorEq,
      show List.range' 0 2 = [0, 1] from rfl, show List.range' 2 2 = [2, 3] from rfl]
  have h1a : percentAgreeOf id id 4 1 fcC6 boundsTwo2 order4 = [1, 1, 1, 1] := by
    simp only [percentAgreeOf, h1p]
    norm_num [tabL, modeCount, List.range_succ]
  have h1c : restConsensusOf id id 4 1 fcC6 boundsTwo2 order4 = [1, 0, 0, 1] := by
    rw [restConsensusOf]
    simp only [h1a, restModeListOf, h1p]
    norm_num [tabL, modeVal, modeCount, listMinD, boundsTwo2, List.range_succ,
      show List.range' 0 2 = [0, 1] from rfl, show List.range' 2 2 = [2, 3] from rfl]
    rfl
  have h2p : restPreferencesOf id id 4 1 fcC6 [(0, 1, 2), (2, 3, 2)] [1, 2, 0, 3]
      = [[1], [0], [1], [1]] := by
    norm_num [restPreferencesOf, fisherClusterVec, subjSortedCA, argsortDescHead,
      lastNoneIdx, lastArgmaxQ, lastArgmaxQAux, nanmean, tabL, fcC6,
      List.range_succ, List.filterMap, Option.some_ne_none, reduceCtorEq,
      show List.range' 0 2 = [0, 1] from rfl, show List.range' 2 2 = [2, 3] from rfl]
  have h2a : percentAgreeOf id id 4 1 fcC6 [(0, 1, 2), (2, 3, 2)] [1, 2, 0, 3]
      = [1, 1, 1, 1] := by
    simp only [percentAgreeOf, h2p]
    norm_num [tabL, modeCount, List.range_succ]
  have h2c : restConsensusOf id id 4 1 fcC6 [(0, 1, 2), (2, 3, 2)] [1, 2, 0, 3]
      = [1, 0, 1, 1] := by
    rw [restConsensusOf]
    simp only [h2a, restModeListOf, h2p]
    norm_num [tabL, modeVal, modeCount, listMinD, List.range_succ,
      show List.range' 0 2 = [0, 1] from rfl, show List.range' 2 2 = [2, 3] from rfl]
    rfl
  refine ⟨?_, ?_, by decide⟩
  · rw [restPartitionAdjuster]
    simp only [h1p, h1a, h1c]
    rfl
  · rw [horder, restPartitionAdjuster]
    simp only [h2p, h2a, h2c]
    rfl

/-- Count of a key in a replicate-concatenation over distinct keys. -/
theorem count_flatRep (c : ℕ → ℕ) (k : ℕ) : ∀ (ks : List ℕ), ks.Nodup →
    (ks.flatMap (fun j => List.replicate (c j) j)).count k
      = if k ∈ ks then c k else 0 := by
  intro ks
  induction ks with
  | nil => intro _; simp
  | cons j ks ih =>
    intro hnd
    rw [List.flatMap_cons, List.count_append, ih (List.nodup_cons.mp hnd).2]
    by_cases hkj : k = j
    · subst hkj
      simp [List.count_replicate, (List.nodup_cons.mp hnd).1]
    · simp [List.count_replicate, hkj, Ne.symm hkj, List.mem_cons]

/-- Count of a key in the a-priori affiliation vector: the network's size. -/
theorem count_origAffil (bounds : List (ℕ × ℕ × ℕ)) (k : ℕ) :
    (origAffil bounds).count k
      = if k < bounds.length then (bounds.getD k (0, 0, 0)).2.2 else 0 := by
  rw [origAffil, count_flatRep _ _ _ (List.nodup_range bounds.length)]
  by_cases h : k < bounds.length
  · rw [if_pos (List.mem_range.mpr h), if_pos h]
  · rw [if_neg (fun h' => h (List.mem_range.mp h')), if_neg h]

/-- An upper bound on every element bounds the running maximum. -/
theorem maxKey_le {l : List ℕ} {b : ℕ} (h : ∀ v ∈ l, v ≤ b) : maxKey l ≤ b := by
  induction l with
  | nil => exact Nat.zero_le b
  | cons x xs ih =>
    have : max x (maxKey xs) ≤ b :=
      Nat.max_le.mpr ⟨h x (List.mem_cons_self x xs),
        ih (fun v hv => h v (List.mem_cons_of_mem x hv))⟩
    exact this

/-- Every well-formed network has at least one node. -/
theorem wf_size_pos {bounds : List (ℕ × ℕ × ℕ)} {n : ℕ} (hwf : WFBounds bounds n)
    {k : ℕ} (hk : k < bounds.length) : 0 < (bounds.getD k (0, 0, 0)).2.2 := by
  have := hwf.1 k hk
  omega

/-- The a-priori affiliation vector of a nonempty well-formed partition has
maximum key `numNets - 1`. -/
theorem maxKey_origAffil {bounds : List (ℕ × ℕ × ℕ)} {n : ℕ} (hwf : WFBounds bounds n)
    (hlen : 0 < bounds.length) : maxKey (origAffil bounds) = bounds.length - 1 := by
  refine Nat.le_antisymm (maxKey_le (fun v hv => ?_)) (le_maxKey ?_)
  · have := List.mem_range.mp (mem_flatRep_keys hv)
    omega
  · rw [origAffil, List.mem_flatMap]
    exact ⟨bounds.length - 1, List.mem_range.mpr (by omega),
      List.mem_replicate.mpr ⟨Nat.pos_iff_ne_zero.mp (wf_size_pos hwf (by omega)), rfl⟩⟩

/-- Sorting the a-priori affiliation vector is the identity. -/
theorem npSortNat_origAffil {bounds : List (ℕ × ℕ × ℕ)} {n : ℕ} (hwf : WFBounds bounds n)
    (hlen : 0 < bounds.length) : npSortNat (origAffil bounds) = origAffil bounds := by
  rw [npSortNat, maxKey_origAffil hwf hlen,
    (by omega : bounds.length - 1 + 1 = bounds.length)]
  conv_rhs => rw [origAffil]
  refine List.flatMap_congr (fun k hk => ?_)
  rw [count_origAffil, if_pos (List.mem_range.mp hk)]

/-- Prefix sums of well-formed network sizes are the start indices. -/
theorem wf_prefix_sum {bounds : List (ℕ × ℕ × ℕ)} {n : ℕ} (hwf : WFBounds bounds n) :
    ∀ k, k < bounds.length →
      (∑ j ∈ Finset.range k, (bounds.getD j (0, 0, 0)).2.2) = (bounds.getD k (0, 0, 0)).1 := by
  intro k
  induction k with
  | zero => intro hk; rw [Finset.sum_range_zero, (hwf.2.2.1 hk).1]
  | succ m ih =>
    intro hk
    have hm : m < bounds.length := by omega
    rw [Finset.sum_range_succ, ih hm, hwf.2.1 m hk]
    have := hwf.1 m hm
    omega

/-- The total size of a well-formed partition is the node count. -/
theorem wf_total_size {bounds : List (ℕ × ℕ × ℕ)} {n : ℕ} (hwf : WFBounds bounds n) :
    (∑ j ∈ Finset.range bounds.length, (bounds.getD j (0, 0, 0)).2.2) = n := by
  rcases Nat.eq_zero_or_pos bounds.length with h0 | hpos
  · rw [h0, Finset.range_zero, Finset.sum_empty, (hwf.2.2.2 h0).symm]
  · have hlast : bounds.length - 1 < bounds.length := by omega
    have : bounds.length = (bounds.length - 1) + 1 := by omega
    rw [this, Finset.sum_range_succ, wf_prefix_sum hwf _ (by omega)]
    have h1 := hwf.1 (bounds.length - 1) hlast
    have h2 := (hwf.2.2.1 hpos).2
    omega

/-- The length of the a-priori affiliation vector is the node count. -/
theorem length_origAffil {bounds : List (ℕ × ℕ × ℕ)} {n : ℕ} (hwf : WFBounds bounds n) :
    (origAffil bounds).length = n := by
  have h1 : (List.range bounds.length).map
      (List.length ∘ fun k => List.replicate (bounds.getD k (0, 0, 0)).2.2 k)
      = tabL bounds.length (fun k => (bounds.getD k (0, 0, 0)).2.2) :=
    List.map_congr_left (fun k _ => by simp [Function.comp, List.length_replicate])
  rw [origAffil, List.length_flatMap, h1, sum_tabL, wf_total_size hwf]

/-- Position run of network `k` inside the a-priori affiliation vector. -/
theorem finder_origAffil {bounds : List (ℕ × ℕ × ℕ)} {n : ℕ} (_hwf : WFBounds bounds n)
    {k : ℕ} (hk : k < bounds.length) :
    finderOf (origAffil bounds) k
      = List.range' (∑ j ∈ Finset.range k, (bounds.getD j (0, 0, 0)).2.2)
          ((bounds.getD k (0, 0, 0)).2.2) := by
  conv_lhs => rw [origAffil, List.range_eq_range']
  rw [finder_flatRep (fun j => (bounds.getD j (0, 0, 0)).2.2) k bounds.length 0
    (Nat.zero_le k) (by omega), ← Finset.range_eq_Ico]

/-- End indices strictly precede all later start indices: the networks of a
well-formed partition are disjoint and ordered. -/
theorem wf_end_lt_start {bounds : List (ℕ × ℕ × ℕ)} {n : ℕ} (hwf : WFBounds bounds n) :
    ∀ d k, k + d + 1 < bounds.length →
      (bounds.getD k (0, 0, 0)).2.1 < (bounds.getD (k + d + 1) (0, 0, 0)).1 := by
  intro d
  induction d with
  | zero =>
    intro k hk
    have heq0 : k + 0 + 1 = k + 1 := rfl
    rw [heq0, hwf.2.1 k hk]
    omega
  | succ d ih =>
    intro k hk
    have heq : k + (d + 1) + 1 = k + d + 1 + 1 := rfl
    rw [heq]
    have h1 := ih k (by omega)
    have h2 := hwf.2.1 (k + d + 1) (by omega)
    have h3 := hwf.1 (k + d + 1) (by omega)
    omega

/-- A node position covered by two well-formed networks pins them equal. -/
theorem wf_cover_unique {bounds : List (ℕ × ℕ × ℕ)} {n : ℕ} (hwf : WFBounds bounds n)
    {k k' i : ℕ} (hk : k < bounds.length) (hk' : k' < bounds.length)
    (hcov : (bounds.getD k (0, 0, 0)).1 ≤ i ∧ i ≤ (bounds.getD k (0, 0, 0)).2.1)
    (hcov' : (bounds.getD k' (0, 0, 0)).1 ≤ i ∧ i ≤ (bounds.getD k' (0, 0, 0)).2.1) :
    k' = k := by
  by_contra hne
  rcases Nat.lt_or_ge k' k with h | h
  · have hlt := wf_end_lt_start hwf (k - k' - 1) k' (by omega)
    have he : k' + (k - k' - 1) + 1 = k := by omega
    rw [he] at hlt
    omega
  · have hkk : k < k' := by omega
    have hlt := wf_end_lt_start hwf (k' - k - 1) k (by omega)
    have he : k + (k' - k - 1) + 1 = k' := by omega
    rw [he] at hlt
    omega

/-- Every well-formed network range lies below the node count. -/
theorem wf_end_lt_n {bounds : List (ℕ × ℕ × ℕ)} {n : ℕ} (hwf : WFBounds bounds n)
    {k : ℕ} (hk : k < bounds.length) : (bounds.getD k (0, 0, 0)).2.1 < n := by
  have hlast := (hwf.2.2.1 (by omega)).2
  rcases Nat.lt_or_ge k (bounds.length - 1) with h | h
  · have hlt := wf_end_lt_start hwf (bounds.length - 1 - k - 1) k (by omega)
    have he : k + (bounds.length - 1 - k - 1) + 1 = bounds.length - 1 := by omega
    rw [he] at hlt
    have h3 := hwf.1 (bounds.length - 1) (by omega)
    omega
  · have hke : k = bounds.length - 1 := by omega
    rw [hke]
    omega

/-- The affiliation value at a position inside network `k`'s range is `k`. -/
theorem getD_origAffil {bounds : List (ℕ × ℕ × ℕ)} {n : ℕ} (hwf : WFBounds bounds n)
    {k i : ℕ} (hk : k < bounds.length)
    (hcov : (bounds.getD k (0, 0, 0)).1 ≤ i ∧ i ≤ (bounds.getD k (0, 0, 0)).2.1) :
    (origAffil bounds).getD i 0 = k := by
  have hse := hwf.1 k hk
  have hmem : i ∈ finderOf (origAffil bounds) k := by
    rw [finder_origAffil hwf hk, List.mem_range'_1, wf_prefix_sum hwf k hk]
    omega
  exact of_decide_eq_true (List.mem_filter.mp hmem).2

/-- Every position below the node count is covered by some network. -/
theorem wf_cover {bounds : List (ℕ × ℕ × ℕ)} {n : ℕ} (hwf : WFBounds bounds n)
    {i : ℕ} (hi : i < n) : ∃ k, k < bounds.length ∧
      (bounds.getD k (0, 0, 0)).1 ≤ i ∧ i ≤ (bounds.getD k (0, 0, 0)).2.1 := by
  have hlen := length_origAffil hwf
  have hmem : (origAffil bounds).getD i 0 ∈ origAffil bounds := getD_mem_of_lt (by omega) 0
  rw [origAffil] at hmem
  have hklt : (origAffil bounds).getD i 0 < bounds.length :=
    List.mem_range.mp (mem_flatRep_keys hmem)
  refine ⟨(origAffil bounds).getD i 0, hklt, ?_⟩
  have hfind : i ∈ finderOf (origAffil bounds) ((origAffil bounds).getD i 0) :=
    List.mem_filter.mpr ⟨List.mem_range.mpr (by omega), decide_eq_true rfl⟩
  rw [finder_origAffil hwf hklt, List.mem_range'_1, wf_prefix_sum hwf _ hklt] at hfind
  have hse := hwf.1 _ hklt
  omega

/-- A two-level fold of ranged writes preserves the buffer length. -/
theorem foldl_win_set_length (ks : List ℕ) (win : ℕ → List ℕ) (g : ℕ → ℕ → ℕ)
    (acc : List ℕ) :
    (ks.foldl (fun a k' => (win k').foldl (fun a' i => a'.set i (g k' i)) a) acc).length
      = acc.length := by
  induction ks generalizing acc with
  | nil => rfl
  | cons k₀ ks ih => rw [List.foldl_cons, ih, foldl_set_length]

/-- The consensus buffer keeps its initial length. -/
theorem length_restConsensusOf (aF tF : QNan → QNan) (n S : ℕ)
    (fc : ℕ → ℕ → ℕ → QNan) (bounds : List (ℕ × ℕ × ℕ)) (ord : List ℕ) :
    (restConsensusOf aF tF n S fc bounds ord).length = n := by
  rw [restConsensusOf]
  exact Eq.trans (foldl_win_set_length (List.range bounds.length)
    (fun k' => List.range' (bounds.getD k' (0, 0, 0)).1
      ((bounds.getD k' (0, 0, 0)).2.1 + 1 - (bounds.getD k' (0, 0, 0)).1))
    (fun k' node' =>
      if (percentAgreeOf aF tF n S fc bounds ord).getD node' 0 < 1 / 2 then k'
      else (restModeListOf aF tF n S fc bounds ord).getD node' 0)
    (List.replicate n 0)) (List.length_replicate ..)

/-- The consensus value of a node covered by well-formed network `k`, for any
node order: the decision rule, with uniqueness of the covering network derived
from well-formedness. -/
theorem restConsensusOf_getD_wf (aF tF : QNan → QNan) (n S : ℕ)
    (fc : ℕ → ℕ → ℕ → QNan) (bounds : List (ℕ × ℕ × ℕ)) (ord : List ℕ)
    (hwf : WFBounds bounds n) (k i : ℕ) (hi : i < n) (hk : k < bounds.length)
    (hcov : (bounds.getD k (0, 0, 0)).1 ≤ i ∧ i ≤ (bounds.getD k (0, 0, 0)).2.1) :
    (restConsensusOf aF tF n S fc bounds ord).getD i 0 =
      if (percentAgreeOf aF tF n S fc bounds ord).getD i 0 < 1 / 2 then k
      else (restModeListOf aF tF n S fc bounds ord).getD i 0 := by
  have hmem : ∀ k', i ∈ List.range' (bounds.getD k' (0, 0, 0)).1
      ((bounds.getD k' (0, 0, 0)).2.1 + 1 - (bounds.getD k' (0, 0, 0)).1) ↔
      ((bounds.getD k' (0, 0, 0)).1 ≤ i ∧ i ≤ (bounds.getD k' (0, 0, 0)).2.1) := by
    intro k'
    rw [List.mem_range'_1]
    omega
  rw [restConsensusOf]
  exact foldl_win_set_getD (List.range bounds.length)
    (fun k' => List.range' (bounds.getD k' (0, 0, 0)).1
      ((bounds.getD k' (0, 0, 0)).2.1 + 1 - (bounds.getD k' (0, 0, 0)).1))
    (fun k' node' =>
      if (percentAgreeOf aF tF n S fc bounds ord).getD node' 0 < 1 / 2 then k'
      else (restModeListOf aF tF n S fc bounds ord).getD node' 0)
    (List.replicate n 0) i (by rw [List.length_replicate]; exact hi)
    k (List.mem_range.mpr hk) ((hmem k).mpr hcov)
    (fun k' hk' hcov' =>
      wf_cover_unique hwf hk (List.mem_range.mp hk') hcov ((hmem k').mp hcov'))

/-- `nanmean` as a conditional on the NaN-stripped window. -/
theorem nanmean_eq_ite (l : List QNan) :
    nanmean l = if l.filterMap id = [] then none
      else some ((l.filterMap id).sum / ((l.filterMap id).length : ℚ)) := by
  rw [nanmean]
  rcases hc : l.filterMap id with _ | ⟨x, xs⟩
  · rw [if_pos rfl]
  · rw [if_neg (by simp)]

/-- `nanmean` is invariant under permutation of its window. -/
theorem nanmean_perm {l l' : List QNan} (h : l.Perm l') : nanmean l = nanmean l' := by
  have hfm := h.filterMap id
  rw [nanmean_eq_ite, nanmean_eq_ite]
  by_cases hc : l.filterMap id = []
  · rw [if_pos hc, if_pos (by rw [hc] at hfm; exact hfm.symm.eq_nil)]
  · rw [if_neg hc, if_neg (fun hc' => hc (by rw [hc'] at hfm; exact hfm.eq_nil)),
      hfm.sum_eq, hfm.length_eq]

/-- Reindexing a contiguous window by a map that is a self-bounded bijection
of the window (with explicit inverse) permutes the window. -/
theorem map_perm_range' (f g : ℕ → ℕ) (a m : ℕ)
    (hf : ∀ i, a ≤ i → i < a + m → a ≤ f i ∧ f i < a + m)
    (hg : ∀ i, a ≤ i → i < a + m → a ≤ g i ∧ g i < a + m)
    (hgf : ∀ i, a ≤ i → i < a + m → g (f i) = i)
    (hfg : ∀ i, a ≤ i → i < a + m → f (g i) = i) :
    ((List.range' a m).map f).Perm (List.range' a m) := by
  refine List.perm_of_nodup_nodup_toFinset_eq
    ((List.nodup_range' a m).map_on ?_) (List.nodup_range' a m) ?_
  · intro x hx y hy hxy
    rw [List.mem_range'_1] at hx hy
    rw [← hgf x hx.1 hx.2, ← hgf y hy.1 hy.2, hxy]
  · refine Finset.ext (fun x => ?_)
    rw [List.mem_toFinset, List.mem_toFinset, List.mem_range'_1]
    constructor
    · intro hx
      obtain ⟨i, hi, hix⟩ := List.mem_map.mp hx
      rw [List.mem_range'_1] at hi
      rw [← hix]
      exact hf i hi.1 hi.2
    · intro hx
      refine List.mem_map.mpr ⟨g x, ?_, hfg x hx.1 hx.2⟩
      rw [List.mem_range'_1]
      exact hg x hx.1 hx.2

/-- Reordering the nodes by a within-block permutation `f` (with inverse `g`)
turns row `i` of the Fisher-z cluster vector into row `f i` of the original
run: every network window's multiset of values is preserved and `nanmean` is
permutation-invariant.  `f` ranges over exactly the tie-breakings an
(unstable) argsort of the block-constant consensus vector can produce. -/
theorem fisherClusterVec_reorder (aF tF : QNan → QNan) (fc : ℕ → ℕ → ℕ → QNan)
    (ord : List ℕ) (bounds : List (ℕ × ℕ × ℕ)) (n : ℕ) (f g : ℕ → ℕ)
    (hwf : WFBounds bounds n)
    (hf : ∀ b ∈ bounds, ∀ j, b.1 ≤ j → j ≤ b.2.1 → b.1 ≤ f j ∧ f j ≤ b.2.1)
    (hg : ∀ b ∈ bounds, ∀ j, b.1 ≤ j → j ≤ b.2.1 → b.1 ≤ g j ∧ g j ≤ b.2.1)
    (hinv : ∀ i, i < n → g (f i) = i ∧ f (g i) = i)
    (s i : ℕ) (hi : i < n) :
    fisherClusterVec aF tF fc (tabL n (fun p => ord.getD (f p) 0)) bounds s i
      = fisherClusterVec aF tF fc ord bounds s (f i) := by
  rw [fisherClusterVec, fisherClusterVec]
  refine List.map_congr_left (fun b hb => ?_)
  dsimp only
  obtain ⟨kb, hkb, hbeq⟩ := List.mem_iff_getElem.mp hb
  have hbgd : bounds.getD kb (0, 0, 0) = b := by
    rw [List.getD_eq_getElem _ _ hkb, hbeq]
  have hse := hwf.1 kb hkb
  have hend := wf_end_lt_n hwf hkb
  rw [hbgd] at hse hend
  have hwin : ∀ j, b.1 ≤ j → j < b.1 + (b.2.1 + 1 - b.1) → j < n := by
    intro j h1 h2
    omega
  have hfw : ∀ j, b.1 ≤ j → j < b.1 + (b.2.1 + 1 - b.1) →
      b.1 ≤ f j ∧ f j < b.1 + (b.2.1 + 1 - b.1) := by
    intro j h1 h2
    have := hf b hb j h1 (by omega)
    omega
  have hgw : ∀ j, b.1 ≤ j → j < b.1 + (b.2.1 + 1 - b.1) →
      b.1 ≤ g j ∧ g j < b.1 + (b.2.1 + 1 - b.1) := by
    intro j h1 h2
    have := hg b hb j h1 (by omega)
    omega
  have hgfw : ∀ j, b.1 ≤ j → j < b.1 + (b.2.1 + 1 - b.1) → g (f j) = j :=
    fun j h1 h2 => (hinv j (hwin j h1 h2)).1
  have hfgw : ∀ j, b.1 ≤ j → j < b.1 + (b.2.1 + 1 - b.1) → f (g j) = j :=
    fun j h1 h2 => (hinv j (hwin j h1 h2)).2
  have hstep : ∀ j ∈ List.range' b.1 (b.2.1 + 1 - b.1),
      aF (subjSortedCA fc (tabL n (fun p => ord.getD (f p) 0)) s i j)
        = aF (subjSortedCA fc ord s (f i) (f j)) := by
    intro j hj
    rw [List.mem_range'_1] at hj
    have hjn : j < n := by omega
    rw [subjSortedCA, subjSortedCA, getD_tabL n _ 0 i hi, getD_tabL n _ 0 j hjn]
    by_cases hij : i = j
    · subst hij
      rw [if_pos rfl, if_pos rfl]
    · rw [if_neg hij, if_neg (fun hfij => hij (by
        rw [← (hinv i hi).1, ← (hinv j hjn).1, hfij]))]
  have hcomp : (fun j => aF (subjSortedCA fc ord s (f i) (f j)))
      = (fun j => aF (subjSortedCA fc ord s (f i) j)) ∘ f := rfl
  refine congrArg tF ?_
  rw [List.map_congr_left hstep, hcomp, ← List.map_map]
  exact nanmean_perm ((map_perm_range' f g b.1 (b.2.1 + 1 - b.1) hfw hgw hgfw hfgw).map
    (fun j => aF (subjSortedCA fc ord s (f i) j)))

/-- If a run's consensus equals the a-priori assignment, so does the consensus
of a second run whose node order is the first reindexed by ANY within-block
permutation — i.e. under every admissible argsort tie-breaking. -/
theorem consensus_reorder_of_origAffil (aF tF : QNan → QNan) (n S : ℕ)
    (fc : ℕ → ℕ → ℕ → QNan) (bounds : List (ℕ × ℕ × ℕ)) (ord : List ℕ) (f g : ℕ → ℕ)
    (hwf : WFBounds bounds n)
    (hf : ∀ b ∈ bounds, ∀ j, b.1 ≤ j → j ≤ b.2.1 → b.1 ≤ f j ∧ f j ≤ b.2.1)
    (hg : ∀ b ∈ bounds, ∀ j, b.1 ≤ j → j ≤ b.2.1 → b.1 ≤ g j ∧ g j ≤ b.2.1)
    (hinv : ∀ i, i < n → g (f i) = i ∧ f (g i) = i)
    (hcons : restConsensusOf aF tF n S fc bounds ord = origAffil bounds) :
    restConsensusOf aF tF n S fc bounds (tabL n (fun p => ord.getD (f p) 0))
      = origAffil bounds := by
  have hfn : ∀ i, i < n → f i < n := by
    intro i hi
    obtain ⟨k, hk, hcov⟩ := wf_cover hwf hi
    have hbk : bounds.getD k (0, 0, 0) ∈ bounds := by
      rw [List.getD_eq_getElem _ _ hk]
      exact List.getElem_mem hk
    have hfi := hf _ hbk i hcov.1 hcov.2
    have hend := wf_end_lt_n hwf hk
    omega
  have hprefs : ∀ i, i < n →
      (restPreferencesOf aF tF n S fc bounds (tabL n (fun p => ord.getD (f p) 0))).getD i []
        = (restPreferencesOf aF tF n S fc bounds ord).getD (f i) [] := by
    intro i hi
    rw [restPreferencesOf, restPreferencesOf, getD_tabL n _ [] i hi,
      getD_tabL n _ [] (f i) (hfn i hi)]
    exact tabL_congr (fun s _ => congrArg argsortDescHead
      (fisherClusterVec_reorder aF tF fc ord bounds n f g hwf hf hg hinv s i hi))
  have hagree : ∀ i, i < n →
      (percentAgreeOf aF tF n S fc bounds (tabL n (fun p => ord.getD (f p) 0))).getD i 0
        = (percentAgreeOf aF tF n S fc bounds ord).getD (f i) 0 := by
    intro i hi
    rw [percentAgreeOf, percentAgreeOf, getD_tabL n _ 0 i hi,
      getD_tabL n _ 0 (f i) (hfn i hi), hprefs i hi]
  have hmode : ∀ i, i < n →
      (restModeListOf aF tF n S fc bounds (tabL n (fun p => ord.getD (f p) 0))).getD i 0
        = (restModeListOf aF tF n S fc bounds ord).getD (f i) 0 := by
    intro i hi
    rw [restModeListOf, restModeListOf, getD_tabL n _ 0 i hi,
      getD_tabL n _ 0 (f i) (hfn i hi), hprefs i hi]
  refine List.ext_getElem ?_ (fun i h1 h2 => ?_)
  · rw [length_restConsensusOf, length_origAffil hwf]
  · have hin : i < n := by
      rw [length_restConsensusOf] at h1
      exact h1
    obtain ⟨k, hk, hcov⟩ := wf_cover hwf hin
    have hbk : bounds.getD k (0, 0, 0) ∈ bounds := by
      rw [List.getD_eq_getElem _ _ hk]
      exact List.getElem_mem hk
    have hfcov := hf _ hbk i hcov.1 hcov.2
    have hfin : f i < n := hfn i hin
    rw [← List.getD_eq_getElem _ 0 h1, ← List.getD_eq_getElem _ 0 h2,
      restConsensusOf_getD_wf aF tF n S fc bounds _ hwf k i hin hk hcov,
      hagree i hin, hmode i hin]
    have hdec : (if (percentAgreeOf aF tF n S fc bounds ord).getD (f i) 0 < 1 / 2 then k
        else (restModeListOf aF tF n S fc bounds ord).getD (f i) 0) = k := by
      rw [← restConsensusOf_getD_wf aF tF n S fc bounds ord hwf k (f i) hfin hk hfcov, hcons]
      exact getD_origAffil hwf hk hfcov
    rw [hdec, getD_origAffil hwf hk hcov]

/-- A consensus vector equal to the a-priori affiliation sorts to itself and
rebuilds exactly the input boundary rows. -/
theorem rebuild_of_origAffil {bounds : List (ℕ × ℕ × ℕ)} {n : ℕ}
    (hwf : WFBounds bounds n) (cons : List ℕ) (hc : cons = origAffil bounds) :
    npSortNat cons = origAffil bounds
    ∧ buildBoundsAux (npSortNat cons) (List.range bounds.length) = Except.ok bounds := by
  subst hc
  rcases Nat.eq_zero_or_pos bounds.length with h0 | hpos
  · have hbnil : bounds = [] := List.length_eq_zero.mp h0
    subst hbnil
    exact ⟨rfl, rfl⟩
  · refine ⟨npSortNat_origAffil hwf hpos, ?_⟩
    rw [npSortNat_origAffil hwf hpos,
      buildBoundsAux_eq_ok _ _ (fun k hk => (finderOf_ne_nil_iff _ _).mpr
        (List.count_pos_iff.mp (by
          rw [count_origAffil, if_pos (List.mem_range.mp hk)]
          exact wf_size_pos hwf (List.mem_range.mp hk))))]
    refine congrArg Except.ok (List.ext_getElem (by simp) (fun k h1 h2 => ?_))
    have hk : k < bounds.length := h2
    have hfin := finder_origAffil hwf hk
    have hsz := wf_size_pos hwf hk
    simp only [List.getElem_map, List.getElem_range]
    rw [hfin]
    have hhead : (List.range' (∑ j ∈ Finset.range k, (bounds.getD j (0, 0, 0)).2.2)
        ((bounds.getD k (0, 0, 0)).2.2)).headD 0
        = ∑ j ∈ Finset.range k, (bounds.getD j (0, 0, 0)).2.2 := by
      rw [List.headD_eq_head?_getD, List.head?_range' _, if_neg (by omega)]
      rfl
    have hlast : (List.range' (∑ j ∈ Finset.range k, (bounds.getD j (0, 0, 0)).2.2)
        ((bounds.getD k (0, 0, 0)).2.2)).getLastD 0
        = ∑ j ∈ Finset.range k, (bounds.getD j (0, 0, 0)).2.2 +
            (bounds.getD k (0, 0, 0)).2.2 - 1 := by
      rw [List.getLastD_eq_getLast?, List.getLast?_range' _, if_neg (by omega)]
      rfl
    rw [hhead, hlast, wf_prefix_sum hwf k hk, ← List.getD_eq_getElem bounds (0, 0, 0) hk]
    have h1b := hwf.1 k hk
    refine Prod.ext rfl (Prod.ext ?_ ?_) <;> simp only <;> omega

/-- C6 (amended): when a run's consensus assignment equals the a-priori
assignment at every node (no reassignment), the PARTITION is a fixed point of
`restPartitionAdjuster` under every admissible argsort tie-breaking.
`nodeOrderNew = np.argsort(restConsensus)` is unstable-tie numpy output: any
permutation sorting the block-constant consensus vector, i.e. any within-block
permutation `f` of the node positions (`g` its inverse).  For each such `f`:
the sorted consensus `nodeIndicesNew` equals the a-priori affiliation vector,
the rebuilt boundary rows equal the input boundaries, and a second run on
those boundaries and the combined node order (the first order reindexed by
`f`) reproduces the same consensus, the same sorted vector and the same
boundary rows.  Only the within-block order of `nodeOrderNew` itself depends
on the tie-breaking, so bitwise equality of the two runs' node orders is not
claimed — numpy does not guarantee it. -/
theorem adjuster_fixed_point_no_reassignment (aF tF : QNan → QNan) (n S : ℕ)
    (fc : ℕ → ℕ → ℕ → QNan) (bounds : List (ℕ × ℕ × ℕ)) (ord : List ℕ) (f g : ℕ → ℕ)
    (hwf : WFBounds bounds n)
    (hf : ∀ b ∈ bounds, ∀ j, b.1 ≤ j → j ≤ b.2.1 → b.1 ≤ f j ∧ f j ≤ b.2.1)
    (hg : ∀ b ∈ bounds, ∀ j, b.1 ≤ j → j ≤ b.2.1 → b.1 ≤ g j ∧ g j ≤ b.2.1)
    (hinv : ∀ i, i < n → g (f i) = i ∧ f (g i) = i)
    (hcons : restConsensusOf aF tF n S fc bounds ord = origAffil bounds) :
    npSortNat (restConsensusOf aF tF n S fc bounds ord) = origAffil bounds
    ∧ buildBoundsAux (npSortNat (restConsensusOf aF tF n S fc bounds ord))
        (List.range bounds.length) = Except.ok bounds
    ∧ restConsensusOf aF tF n S fc bounds (tabL n (fun p => ord.getD (f p) 0))
        = origAffil bounds
    ∧ npSortNat (restConsensusOf aF tF n S fc bounds (tabL n (fun p => ord.getD (f p) 0)))
        = origAffil bounds
    ∧ buildBoundsAux (npSortNat (restConsensusOf aF tF n S fc bounds
          (tabL n (fun p => ord.getD (f p) 0)))) (List.range bounds.length)
      = Except.ok bounds := by
  have h1 := rebuild_of_origAffil hwf _ hcons
  have hc2 := consensus_reorder_of_origAffil aF tF n S fc bounds ord f g hwf hf hg hinv hcons
  have h2 := rebuild_of_origAffil hwf _ hc2
  exact ⟨h1.1, h1.2, hc2, h2.1, h2.2⟩

/-- C6 (witness for the amended statement): on `fcW6` every node keeps its
a-priori network; the sorted consensus and the rebuilt boundary rows equal the
input partition on the first run and again on a second run over the combined
node order (identity tie-breaking instantiated). -/
theorem adjuster_fixed_point_witness :
    npSortNat (restConsensusOf id id 4 1 fcW6 boundsTwo2 order4) = origAffil boundsTwo2
    ∧ buildBoundsAux (npSortNat (restConsensusOf id id 4 1 fcW6 boundsTwo2 order4))
        (List.range boundsTwo2.length) = Except.ok boundsTwo2
    ∧ restConsensusOf id id 4 1 fcW6 boundsTwo2 (tabL 4 (fun p => order4.getD (id p) 0))
        = origAffil boundsTwo2
    ∧ npSortNat (restConsensusOf id id 4 1 fcW6 boundsTwo2
          (tabL 4 (fun p => order4.getD (id p) 0))) = origAffil boundsTwo2
    ∧ buildBoundsAux (npSortNat (restConsensusOf id id 4 1 fcW6 boundsTwo2
          (tabL 4 (fun p => order4.getD (id p) 0)))) (List.range boundsTwo2.length)
      = Except.ok boundsTwo2 :=
  adjuster_fixed_point_no_reassignment id id 4 1 fcW6 boundsTwo2 order4 id id
    (by refine ⟨by decide, ?_, fun _ => ⟨rfl, rfl⟩, fun h => absurd h (by decide)⟩
        intro k hk
        have hk0 : k = 0 := by
          have : boundsTwo2.length = 2 := rfl
          omega
        subst hk0
        rfl)
    (fun b _ j h1 h2 => ⟨h1, h2⟩)
    (fun b _ j h1 h2 => ⟨h1, h2⟩)
    (fun i _ => ⟨rfl, rfl⟩)
    (by have heval : restConsensusOf id id 4 1 fcW6 boundsTwo2 order4 = [0, 0, 1, 1] := by
          norm_num [restConsensusOf, percentAgreeOf, restModeListOf, restPreferencesOf,
            fisherClusterVec, subjSortedCA, argsortDescHead, lastNoneIdx, lastArgmaxQ,
            lastArgmaxQAux, nanmean, modeVal, modeCount, listMinD, tabL, fcW6, boundsTwo2,
            order4, List.range_succ, List.filterMap, Option.some_ne_none, reduceCtorEq,
            show List.range' 0 2 = [0, 1] from rfl, show List.range' 2 2 = [2, 3] from rfl]
          rfl
        rw [heval]
        rfl)

/-!
## C5 — the mean-first branch and the subjects-first average
-/

/-- `nanmean` over a window of finite values. -/
theorem nanmean_map_some (l : List ℚ) :
    nanmean (l.map some) = if l = [] then none else some (l.sum / l.length) := by
  cases l with
  | nil => rfl
  | cons x xs =>
    rw [nanmean, if_neg (by simp)]
    have : (List.map some (x :: xs)).filterMap id = x :: xs := by
      rw [List.filterMap_map]
      simp
    rw [this]

/-- Sum of a flat map, blockwise. -/
theorem sum_flatMap {α : Type} (l : List α) (f : α → List ℚ) :
    (l.flatMap f).sum = (l.map (fun a => (f a).sum)).sum := by
  induction l with
  | nil => rfl
  | cons x xs ih => rw [List.flatMap_cons, List.sum_append, List.map_cons, List.sum_cons, ih]

/-- Dividing each summand equals dividing the sum. -/
theorem sum_map_div {α : Type} (l : List α) (f : α → ℚ) (c : ℚ) :
    (l.map (fun a => f a / c)).sum = (l.map f).sum / c := by
  induction l with
  | nil => simp
  | cons x xs ih => rw [List.map_cons, List.sum_cons, List.map_cons, List.sum_cons, ih, add_div]

/-- The joint average over a block of columns and all subjects equals the
average over the block of the per-column subject averages (no NaNs present:
all values are given as finite). -/
theorem joint_mean_eq_mean_of_means (js : List ℕ) (S : ℕ) (g : ℕ → ℕ → ℚ) :
    nanmean (js.flatMap (fun j => tabL S (fun s => some (g j s))))
      = nanmean (js.map (fun j => nanmean (tabL S (fun s => some (g j s))))) := by
  rcases Nat.eq_zero_or_pos S with hS | hS
  · subst hS
    have h1 : js.flatMap (fun j => tabL 0 (fun s => some (g j s))) = [] :=
      List.flatMap_eq_nil_iff.mpr (fun j _ => rfl)
    have h2 : js.map (fun j => nanmean (tabL 0 (fun s => some (g j s))))
        = js.map (fun _ => (none : QNan)) := List.map_congr_left (fun j _ => rfl)
    have h3 : (js.map (fun _ => (none : QNan))).filterMap id = [] := by
      induction js with
      | nil => rfl
      | cons x xs ih => simp [List.filterMap_cons, ih]
    rw [h1, h2, nanmean, nanmean, h3]
    rfl
  · have htab : ∀ j : ℕ, tabL S (fun s => some (g j s)) = (tabL S (g j)).map some := by
      intro j
      rw [tabL, tabL, List.map_map]
      rfl
    have htne : ∀ j : ℕ, tabL S (g j) ≠ [] := by
      intro j h
      have := congrArg List.length h
      rw [length_tabL] at this
      simp only [List.length_nil] at this
      omega
    have hLHS : js.flatMap (fun j => tabL S (fun s => some (g j s)))
        = (js.flatMap (fun j => tabL S (g j))).map some := by
      rw [List.map_flatMap]
      exact List.flatMap_congr (fun j _ => htab j)
    have hRHS : js.map (fun j => nanmean (tabL S (fun s => some (g j s))))
        = (js.map (fun j => (tabL S (g j)).sum / S)).map some := by
      rw [List.map_map]
      refine List.map_congr_left (fun j _ => ?_)
      simp only [Function.comp_apply, htab j, nanmean_map_some, if_neg (htne j), length_tabL]
    cases js with
    | nil =>
      rw [hLHS, hRHS]
      rfl
    | cons j0 js' =>
      have hlen : ((j0 :: js').flatMap (fun j => tabL S (g j))).length
          = (j0 :: js').length * S := by
        rw [List.length_flatMap]
        have hrep : (j0 :: js').map (List.length ∘ fun j => tabL S (g j))
            = List.replicate (j0 :: js').length S := by
          rw [List.eq_replicate_iff]
          exact ⟨by simp, fun b hb => by
            obtain ⟨a, _, rfl⟩ := List.mem_map.mp hb
            simp [length_tabL]⟩
        rw [hrep, List.sum_replicate, smul_eq_mul]
      have hne : ((j0 :: js').flatMap (fun j => tabL S (g j))) ≠ [] := by
        intro h
        have hl := congrArg List.length h
        rw [hlen] at hl
        simp only [List.length_nil, List.length_cons] at hl
        exact Nat.mul_ne_zero (by omega) (by omega) hl
      rw [hLHS, hRHS, nanmean_map_some, nanmean_map_some, if_neg hne,
        if_neg (by simp), hlen, sum_flatMap, sum_map_div, List.length_map]
      congr 1
      push_cast
      rw [div_div, mul_comm]

/-- A present optional value is `some` of its default read. -/
theorem qnan_some_getD {x : QNan} (h : x.isSome) : some (x.getD 0) = x := by
  cases x with
  | none => exact absurd h (by simp)
  | some v => rfl

/-- With no NaN among the in-range entries, the mean-first branch's joint
block/subject average coincides with clustering the subject-averaged matrix. -/
theorem cluster_joint_eq_spec (n T S : ℕ) (fc : ℕ → ℕ → ℕ → ℕ → QNan)
    (bounds : List (ℕ × ℕ × ℕ)) (order : List ℕ)
    (hfc : ∀ i j t s, i < n → j < n → t < T → s < S → (fc i j t s).isSome)
    (hord : ∀ i, i < n → order.getD i 0 < n)
    (hb : ∀ b ∈ bounds, b.2.1 < n) :
    clusterJointMF n T S fc bounds order = clusterSpecMF n T S fc bounds order := by
  unfold clusterJointMF clusterSpecMF
  refine tabL_congr (fun node hn => tabL_congr (fun t ht =>
    List.map_congr_left (fun b hbb => ?_)))
  have hL : (List.range' b.1 (b.2.1 + 1 - b.1)).flatMap
        (fun j => tabL S (fun s => fc (order.getD node 0) (order.getD j 0) t s))
      = (List.range' b.1 (b.2.1 + 1 - b.1)).flatMap
        (fun j => tabL S (fun s =>
          some ((fc (order.getD node 0) (order.getD j 0) t s).getD 0))) := by
    refine List.flatMap_congr (fun j hj => tabL_congr (fun s hs => ?_))
    have hjn : j < n := by
      have := List.mem_range'_1.mp hj
      have := hb b hbb
      omega
    exact (qnan_some_getD (hfc _ _ t s (hord node hn) (hord j hjn) ht hs)).symm
  have hR : (List.range' b.1 (b.2.1 + 1 - b.1)).map
        (fun j => meanAcrossSubjs S fc (order.getD node 0) (order.getD j 0) t)
      = (List.range' b.1 (b.2.1 + 1 - b.1)).map
        (fun j => nanmean (tabL S (fun s =>
          some ((fc (order.getD node 0) (order.getD j 0) t s).getD 0)))) := by
    refine List.map_congr_left (fun j hj => ?_)
    have hjn : j < n := by
      have := List.mem_range'_1.mp hj
      have := hb b hbb
      omega
    refine congrArg nanmean (tabL_congr (fun s hs => ?_))
    exact (qnan_some_getD (hfc _ _ t s (hord node hn) (hord j hjn) ht hs)).symm
  rw [hL, hR]
  exact joint_mean_eq_mean_of_means _ S _

/-- C5 (amended): on NaN-free inputs the mean-first branch of `deviation`
equals the spec-modelled subjects-first pipeline — the joint average the
source takes agrees with averaging across subjects before clustering, and
every downstream output coincides. -/
theorem meanFirst_joint_eq_specModel (n numNets T S : ℕ) (fc : ℕ → ℕ → ℕ → ℕ → QNan)
    (bounds : List (ℕ × ℕ × ℕ)) (order : List ℕ)
    (hfc : ∀ i j t s, i < n → j < n → t < T → s < S → (fc i j t s).isSome)
    (hord : ∀ i, i < n → order.getD i 0 < n)
    (hb : ∀ b ∈ bounds, b.2.1 < n) :
    deviation_meanFirst n numNets T S fc bounds order
      = deviation_meanFirst_specModel n numNets T S fc bounds order := by
  unfold deviation_meanFirst deviation_meanFirst_specModel
  rw [cluster_joint_eq_spec n T S fc bounds order hfc hord hb]

/-- C5 (witness for the amended statement): a NaN-free 1-node run. -/
theorem meanFirst_joint_eq_specModel_witness :
    deviation_meanFirst 1 1 1 1 fcOne boundsOne1 order1
      = deviation_meanFirst_specModel 1 1 1 1 fcOne boundsOne1 order1 :=
  meanFirst_joint_eq_specModel 1 1 1 1 fcOne boundsOne1 order1
    (fun _ _ _ _ _ _ _ _ => rfl)
    (fun i hi => by interval_cases i; decide)
    (fun b hb => by rw [List.mem_singleton.mp hb]; decide)

set_option maxHeartbeats 3200000 in
/-- C5 (counterexample): with a NaN present, `deviation(useMeanFirst=True)` is
NOT the subjects-first pipeline.  On `fc5` the source's joint average gives
node 0 the in-network preference (deviation `[0, 0]`), while averaging across
subjects first flips node 0's preference to the other network (deviation
`[1/2, 0]`). -/
theorem meanFirst_differs_from_specModel :
    (deviation_meanFirst 3 2 1 2 fc5 bounds5 order3).deviationRFs = [some 0, some 0] ∧
    (deviation_meanFirst_specModel 3 2 1 2 fc5 bounds5 order3).deviationRFs
      = [some (1/2), some 0] := by
  constructor
  · have hcl : clusterJointMF 3 1 2 fc5 bounds5 order3
        = [[[some (1/3), some (3/10)]], [[some (1/2), some 0]], [[some 0, some (1/2)]]] := by
      norm_num [clusterJointMF, tabL, nanmean, fc5, bounds5, order3, List.range_succ,
        List.filterMap, Option.some_ne_none, reduceCtorEq,
        show List.range' 0 2 = [0, 1] from rfl, show List.range' 2 1 = [2] from rfl]
    rw [deviation_meanFirst, hcl]
    norm_num [devPostMF, npArgmax, firstNoneIdx, firstArgmaxQ, firstArgmaxQAux,
      nanmean, tabL, qnanSub, bounds5, List.range_succ, List.filterMap,
      Option.some_ne_none, reduceCtorEq,
      show List.range' 0 2 = [0, 1] from rfl, show List.range' 2 1 = [2] from rfl]
  · have hcl : clusterSpecMF 3 1 2 fc5 bounds5 order3
        = [[[some (1/4), some (3/10)]], [[some (1/2), some 0]], [[some 0, some (1/2)]]] := by
      norm_num [clusterSpecMF, meanAcrossSubjs, tabL, nanmean, fc5, bounds5, order3,
        List.range_succ, List.filterMap, Option.some_ne_none, reduceCtorEq,
        show List.range' 0 2 = [0, 1] from rfl, show List.range' 2 1 = [2] from rfl]
    rw [deviation_meanFirst_specModel, hcl]
    norm_num [devPostMF, npArgmax, firstNoneIdx, firstArgmaxQ, firstArgmaxQAux,
      nanmean, tabL, qnanSub, bounds5, List.range_succ, List.filterMap,
      Option.some_ne_none, reduceCtorEq,
      show List.range' 0 2 = [0, 1] from rfl, show List.range' 2 1 = [2] from rfl]
